import Mathlib

/-!
Verification development for the tractus repository (R-script hypothesis-tree
extraction).  The definitions below are a shallow embedding of the Rust
sources:

* `src/parser.rs`  — AST (`RExp`, `RStmt`), `Display` pretty printing,
  `RStmt.expression`, `RExp.extract_variable_name`, the assignment branch of
  `parse_line`.
* `src/hypotheses_tree.rs` — `Hypotheses` ordering, `HypothesesMap.insert`,
  `collect_hypotheses`, `parse_hypothesis_tree`.

Parts of the repository that the claims depend on but that are not present in
the source tree (the `r.pest` grammar / pest engine, `dependency_graph.rs`,
`hypotheses.rs`) are modelled from the specification; each such definition
carries a doc comment starting with `Modelled from the spec:`.

Rust panics are modelled with `Option`/`Except`: a `none`/`.error` result
means the original code would have panicked.
-/

namespace Tractus

/-! ## The abstract syntax tree (from `src/parser.rs`)

The Rust AST uses `Vec`/`Option` nesting inside constructors.  To keep every
recursive function structural (so that the kernel can evaluate them inside
`decide`/`rfl` proofs) the embedded lists are unfolded into mutual inductive
list types.  Constructor names follow `parser.rs`; `Prefix`/`Infix` are
rendered `PrefixOp`/`InfixOp` and `Function` as `FunctionDef` to avoid
keyword clashes.  `ExpList.toList` etc. recover the ordinary list view. -/

mutual

inductive RExp where
  | Constant (s : String)
  | Variable (s : String)
  | Call (callee : RExp) (args : ArgList)
  | Column (left : RExp) (right : RExp)
  | Index (left : RExp) (indices : IdxList)
  | ListIndex (left : RExp) (indices : IdxList)
  | Formula (f : RFormula)
  | FunctionDef (params : ParamList) (body : StmtList)
  | PrefixOp (op : String) (e : RExp)
  | InfixOp (op : String) (left : RExp) (right : RExp)
  deriving Repr

inductive RFormula where
  | OneSided (right : RExp)
  | TwoSided (left : RExp) (right : RExp)
  deriving Repr

/-- Argument list of a call: each entry is an optional name plus a value. -/
inductive ArgList where
  | nil
  | cons (name : Option String) (value : RExp) (rest : ArgList)
  deriving Repr

/-- Index list of `[...]` / `[[...]]`: each slot is present or empty. -/
inductive IdxList where
  | nil
  | consSome (e : RExp) (rest : IdxList)
  | consNone (rest : IdxList)
  deriving Repr

/-- Parameter list of a function definition: required or with default. -/
inductive ParamList where
  | nil
  | consReq (name : String) (rest : ParamList)
  | consDef (name : String) (default : RExp) (rest : ParamList)
  deriving Repr

/-- `Lines` of `parser.rs`: a sequence of statements. -/
inductive StmtList where
  | nil
  | cons (s : RStmt) (rest : StmtList)
  deriving Repr

inductive RStmt where
  | Empty
  | Comment (text : String)
  | TailComment (s : RStmt) (text : String)
  | Assignment (left : RExp) (additional : ExpList) (right : RExp)
  | If (cond : RExp) (body : StmtList) (elseBody : Option StmtList)
  | While (cond : RExp) (body : StmtList)
  | For (pat : RExp) (range : RExp) (body : StmtList)
  | Library (name : String)
  | Expression (e : RExp)
  deriving Repr

/-- The `additional_lhs` list of an assignment. -/
inductive ExpList where
  | nil
  | cons (e : RExp) (rest : ExpList)
  deriving Repr

end

def ExpList.toList : ExpList → List RExp
  | .nil => []
  | .cons e rest => e :: rest.toList

def ExpList.ofList : List RExp → ExpList
  | [] => .nil
  | e :: rest => .cons e (ExpList.ofList rest)

def StmtList.toList : StmtList → List RStmt
  | .nil => []
  | .cons s rest => s :: rest.toList

def StmtList.ofList : List RStmt → StmtList
  | [] => .nil
  | s :: rest => .cons s (StmtList.ofList rest)

def ArgList.ofList : List (Option String × RExp) → ArgList
  | [] => .nil
  | (n, v) :: rest => .cons n v (ArgList.ofList rest)

def ArgList.length : ArgList → Nat
  | .nil => 0
  | .cons _ _ rest => 1 + rest.length

/-! ### Structural (value) equality

`parser.rs` derives `PartialEq`/`Eq`/`Hash` on the AST; the pipeline compares
expressions by structure.  The Boolean test below is structural recursion so
it evaluates inside the kernel; `beqRExp_iff` shows it decides propositional
equality, giving `DecidableEq` instances. -/

mutual

def beqRExp (a b : RExp) : Bool :=
  match a, b with
  | .Constant s, .Constant t => s == t
  | .Variable s, .Variable t => s == t
  | .Call f as, .Call g bs => beqRExp f g && beqArgList as bs
  | .Column a b, .Column c d => beqRExp a c && beqRExp b d
  | .Index a i, .Index b j => beqRExp a b && beqIdxList i j
  | .ListIndex a i, .ListIndex b j => beqRExp a b && beqIdxList i j
  | .Formula f, .Formula g => beqRFormula f g
  | .FunctionDef p b, .FunctionDef q c => beqParamList p q && beqStmtList b c
  | .PrefixOp o e, .PrefixOp p f => o == p && beqRExp e f
  | .InfixOp o a b, .InfixOp p c d => o == p && beqRExp a c && beqRExp b d
  | _, _ => false

termination_by structural a

def beqRFormula (a b : RFormula) : Bool :=
  match a, b with
  | .OneSided r, .OneSided s => beqRExp r s
  | .TwoSided l r, .TwoSided m s => beqRExp l m && beqRExp r s
  | _, _ => false

termination_by structural a

def beqArgList (a b : ArgList) : Bool :=
  match a, b with
  | .nil, .nil => true
  | .cons n v r, .cons m w s => n == m && beqRExp v w && beqArgList r s
  | _, _ => false

termination_by structural a

def beqIdxList (a b : IdxList) : Bool :=
  match a, b with
  | .nil, .nil => true
  | .consSome e r, .consSome f s => beqRExp e f && beqIdxList r s
  | .consNone r, .consNone s => beqIdxList r s
  | _, _ => false

termination_by structural a

def beqParamList (a b : ParamList) : Bool :=
  match a, b with
  | .nil, .nil => true
  | .consReq n r, .consReq m s => n == m && beqParamList r s
  | .consDef n d r, .consDef m e s => n == m && beqRExp d e && beqParamList r s
  | _, _ => false

termination_by structural a

def beqStmtList (a b : StmtList) : Bool :=
  match a, b with
  | .nil, .nil => true
  | .cons a r, .cons b s => beqRStmt a b && beqStmtList r s
  | _, _ => false

termination_by structural a

def beqRStmt (a b : RStmt) : Bool :=
  match a, b with
  | .Empty, .Empty => true
  | .Comment t, .Comment u => t == u
  | .TailComment a t, .TailComment b u => beqRStmt a b && t == u
  | .Assignment l a r, .Assignment m b s => beqRExp l m && beqExpList a b && beqRExp r s
  | .If c b none, .If d e none => beqRExp c d && beqStmtList b e
  | .If c b (some x), .If d e (some y) => beqRExp c d && beqStmtList b e && beqStmtList x y
  | .While c b, .While d e => beqRExp c d && beqStmtList b e
  | .For p r b, .For q s c => beqRExp p q && beqRExp r s && beqStmtList b c
  | .Library n, .Library m => n == m
  | .Expression e, .Expression f => beqRExp e f
  | _, _ => false

termination_by structural a

def beqExpList (a b : ExpList) : Bool :=
  match a, b with
  | .nil, .nil => true
  | .cons e r, .cons f s => beqRExp e f && beqExpList r s
  | _, _ => false

termination_by structural a

end

set_option maxHeartbeats 1600000 in
mutual

theorem beqRExp_iff : ∀ a b : RExp, (beqRExp a b = true) ↔ a = b
  | .Constant s, b => by
      cases b <;> simp [beqRExp]
  | .Variable s, b => by
      cases b <;> simp [beqRExp]
  | .Call f as, b => by
      cases b <;> simp [beqRExp, beqRExp_iff f, beqArgList_iff as]
  | .Column a c, b => by
      cases b <;> simp [beqRExp, beqRExp_iff a, beqRExp_iff c]
  | .Index a i, b => by
      cases b <;> simp [beqRExp, beqRExp_iff a, beqIdxList_iff i]
  | .ListIndex a i, b => by
      cases b <;> simp [beqRExp, beqRExp_iff a, beqIdxList_iff i]
  | .Formula f, b => by
      cases b <;> simp [beqRExp, beqRFormula_iff f]
  | .FunctionDef p c, b => by
      cases b <;> simp [beqRExp, beqParamList_iff p, beqStmtList_iff c]
  | .PrefixOp o e, b => by
      cases b <;> simp [beqRExp, beqRExp_iff e]
  | .InfixOp o a c, b => by
      cases b <;> simp [beqRExp, beqRExp_iff a, beqRExp_iff c, and_assoc]

theorem beqRFormula_iff : ∀ a b : RFormula, (beqRFormula a b = true) ↔ a = b
  | .OneSided r, b => by
      cases b <;> simp [beqRFormula, beqRExp_iff r]
  | .TwoSided l r, b => by
      cases b <;> simp [beqRFormula, beqRExp_iff l, beqRExp_iff r]

theorem beqArgList_iff : ∀ a b : ArgList, (beqArgList a b = true) ↔ a = b
  | .nil, b => by
      cases b <;> simp [beqArgList]
  | .cons n v r, b => by
      cases b <;> simp [beqArgList, beqRExp_iff v, beqArgList_iff r, and_assoc]

theorem beqIdxList_iff : ∀ a b : IdxList, (beqIdxList a b = true) ↔ a = b
  | .nil, b => by
      cases b <;> simp [beqIdxList]
  | .consSome e r, b => by
      cases b <;> simp [beqIdxList, beqRExp_iff e, beqIdxList_iff r]
  | .consNone r, b => by
      cases b <;> simp [beqIdxList, beqIdxList_iff r]

theorem beqParamList_iff : ∀ a b : ParamList, (beqParamList a b = true) ↔ a = b
  | .nil, b => by
      cases b <;> simp [beqParamList]
  | .consReq n r, b => by
      cases b <;> simp [beqParamList, beqParamList_iff r]
  | .consDef n d r, b => by
      cases b <;> simp [beqParamList, beqRExp_iff d, beqParamList_iff r, and_assoc]

theorem beqStmtList_iff : ∀ a b : StmtList, (beqStmtList a b = true) ↔ a = b
  | .nil, b => by
      cases b <;> simp [beqStmtList]
  | .cons a r, b => by
      cases b <;> simp [beqStmtList, beqRStmt_iff a, beqStmtList_iff r]

theorem beqRStmt_iff : ∀ a b : RStmt, (beqRStmt a b = true) ↔ a = b
  | .Empty, b => by
      cases b <;> simp [beqRStmt]
  | .Comment t, b => by
      cases b <;> simp [beqRStmt]
  | .TailComment a t, b => by
      cases b <;> simp [beqRStmt, beqRStmt_iff a]
  | .Assignment l a r, b => by
      cases b <;> simp [beqRStmt, beqRExp_iff l, beqExpList_iff a, beqRExp_iff r, and_assoc]
  | .If c d none, b => by
      cases b <;> try simp [beqRStmt]
      case If c' d' el' =>
        cases el' <;> simp [beqRStmt, beqRExp_iff c, beqStmtList_iff d]
  | .If c d (some x), b => by
      cases b <;> try simp [beqRStmt]
      case If c' d' el' =>
        cases el' <;> simp [beqRStmt, beqRExp_iff c, beqStmtList_iff d, beqStmtList_iff x, and_assoc]
  | .While c d, b => by
      cases b <;> simp [beqRStmt, beqRExp_iff c, beqStmtList_iff d]
  | .For p r d, b => by
      cases b <;> simp [beqRStmt, beqRExp_iff p, beqRExp_iff r, beqStmtList_iff d, and_assoc]
  | .Library n, b => by
      cases b <;> simp [beqRStmt]
  | .Expression e, b => by
      cases b <;> simp [beqRStmt, beqRExp_iff e]

theorem beqExpList_iff : ∀ a b : ExpList, (beqExpList a b = true) ↔ a = b
  | .nil, b => by
      cases b <;> simp [beqExpList]
  | .cons e r, b => by
      cases b <;> simp [beqExpList, beqRExp_iff e, beqExpList_iff r]

end

instance : DecidableEq RExp := fun a b => decidable_of_iff _ (beqRExp_iff a b)
instance : DecidableEq RFormula := fun a b => decidable_of_iff _ (beqRFormula_iff a b)
instance : DecidableEq ArgList := fun a b => decidable_of_iff _ (beqArgList_iff a b)
instance : DecidableEq IdxList := fun a b => decidable_of_iff _ (beqIdxList_iff a b)
instance : DecidableEq ParamList := fun a b => decidable_of_iff _ (beqParamList_iff a b)
instance : DecidableEq StmtList := fun a b => decidable_of_iff _ (beqStmtList_iff a b)
instance : DecidableEq RStmt := fun a b => decidable_of_iff _ (beqRStmt_iff a b)
instance : DecidableEq ExpList := fun a b => decidable_of_iff _ (beqExpList_iff a b)

/-! ## Pretty printing (from `impl Display for RExp` / `RStmt` / `Lines`)

Mirrors `parser.rs` lines 19–23, 62–92, 149–229: calls print as
`callee(arg, name = value)`, indexing as `l[i, j]` with an empty slot printed
as the empty string, formulas as `~ r` / `l ~ r`, functions with a braced,
newline-separated body, prefix operators with no space and infix operators
with single spaces.  `Display for RStmt` prints every assignment target
followed by `" <- "`, an `Empty` statement as a bare newline and a `Library`
statement as just its name. -/

mutual

def prettyExp : RExp → String
  | .Constant s => s
  | .Variable s => s
  | .Call f args => prettyExp f ++ "(" ++ String.intercalate ", " (prettyArgs args) ++ ")"
  | .Column l r => prettyExp l ++ "$" ++ prettyExp r
  | .Index l idx => prettyExp l ++ "[" ++ String.intercalate ", " (prettyIdx idx) ++ "]"
  | .ListIndex l idx => prettyExp l ++ "[[" ++ String.intercalate ", " (prettyIdx idx) ++ "]]"
  | .Formula f => prettyFormula f
  | .FunctionDef ps body =>
      "function (" ++ String.intercalate ", " (prettyParams ps) ++ ") \x7b\n" ++
        prettyLines body ++ "\n\x7d"
  | .PrefixOp op e => op ++ prettyExp e
  | .InfixOp op l r => prettyExp l ++ " " ++ op ++ " " ++ prettyExp r

def prettyFormula : RFormula → String
  | .OneSided r => "~ " ++ prettyExp r
  | .TwoSided l r => prettyExp l ++ " ~ " ++ prettyExp r

def prettyArgs : ArgList → List String
  | .nil => []
  | .cons none v rest => prettyExp v :: prettyArgs rest
  | .cons (some n) v rest => (n ++ " = " ++ prettyExp v) :: prettyArgs rest

def prettyIdx : IdxList → List String
  | .nil => []
  | .consSome e rest => prettyExp e :: prettyIdx rest
  | .consNone rest => "" :: prettyIdx rest

def prettyParams : ParamList → List String
  | .nil => []
  | .consReq n rest => n :: prettyParams rest
  | .consDef n d rest => (n ++ " = " ++ prettyExp d) :: prettyParams rest

def prettyStmt : RStmt → String
  | .Empty => "\n"
  | .Comment t => t
  | .TailComment s t => prettyStmt s ++ " " ++ t
  | .Assignment l add r => prettyExp l ++ " <- " ++ prettyAssignTail add ++ prettyExp r
  | .If c body none => "if (" ++ prettyExp c ++ ") \x7b\n" ++ prettyLines body ++ "\n\x7d"
  | .If c body (some e) =>
      "if (" ++ prettyExp c ++ ") \x7b\n" ++ prettyLines body ++ "\n\x7d" ++
        "\nelse \x7b\n" ++ prettyLines e ++ "\n\x7d"
  | .While c body => "while (" ++ prettyExp c ++ ") \x7b\n" ++ prettyLines body ++ "\n\x7d"
  | .For p r body =>
      "for (" ++ prettyExp p ++ " in " ++ prettyExp r ++ ") \x7b\n" ++ prettyLines body ++ "\n\x7d"
  | .Library n => n
  | .Expression e => prettyExp e

/-- The `"{} <- "` prefixes contributed by `additional_lhs`. -/
def prettyAssignTail : ExpList → String
  | .nil => ""
  | .cons e rest => prettyExp e ++ " <- " ++ prettyAssignTail rest

def prettyLines : StmtList → String
  | .nil => ""
  | .cons s .nil => prettyStmt s
  | .cons s (.cons t rest) => prettyStmt s ++ "\n" ++ prettyLines (.cons t rest)

end

/-! ## `RStmt::expression` (from `parser.rs` lines 44–60) -/

/-- `RStmt::expression`: the rightmost expression a statement binds; `none`
for statements that contribute no expression to the downstream pipeline. -/
def RStmt.expression : RStmt → Option RExp
  | .Assignment _ _ e => some e
  | .Expression e => some e
  | .TailComment s _ => s.expression
  | .If _ _ _ => none
  | .For _ _ _ => none
  | .While _ _ => none
  | .Empty => none
  | .Comment _ => none
  | .Library _ => none

/-! ## `RExp::extract_variable_name` (from `parser.rs` lines 125–146)

The Rust function panics (`unwrap_or_else(|| panic!(..))`) when the callee of
a `Call` does not itself yield a variable name; a panic is modelled as
`Except.error ()`. -/

/-- The distinguished name-introducing functions of `extract_variable_name`. -/
def validFunctions : List String := ["colnames", "rownames", "names"]

/-- The `Call` branch of `extract_variable_name`, as a function of the
callee's extraction result, the (unused unless selected) extraction result
of the first argument, and the argument count: the callee's panic
propagates, a callee without a name panics, a `colnames`/`rownames`/`names`
call of arity one extracts from its argument, anything else yields no
name. -/
def extractCallCase (calleeRes : Except Unit (Option String))
    (argRes : Option (Except Unit (Option String))) (len : Nat) :
    Except Unit (Option String) :=
  match calleeRes with
  | .error e => .error e
  | .ok none => .error ()
  | .ok (some functionName) =>
      if functionName ∈ validFunctions ∧ len = 1 then
        match argRes with
        | some r => r
        | none => .ok none
      else .ok none

/-- `RExp::extract_variable_name`; `.error ()` models the panic. -/
def extract_variable_name : RExp → Except Unit (Option String)
  | .Variable name => .ok (some name)
  | .Column left _ => extract_variable_name left
  | .Index left _ => extract_variable_name left
  | .Call name args =>
      extractCallCase (extract_variable_name name)
        (match args with
         | .cons _ exp _ => some (extract_variable_name exp)
         | .nil => none)
        args.length
  | _ => .ok none

/-! ## The assignment branch of `parse_line` (from `parser.rs` lines 270–282)

Given the list of parsed sub-expressions of a (possibly multi-) assignment,
the code pops the right-most element as the rhs, panics when nothing is left,
and removes the first remaining element as the lhs; the rest becomes
`additional_lhs`.  Panics are modelled as `none`. -/

def mkAssignment (elements : List RExp) : Option RStmt :=
  match elements.getLast? with
  | none => none
  | some right =>
      match elements.dropLast with
      | [] => none
      | left :: additional => some (.Assignment left (ExpList.ofList additional) right)

/-! ## String ordering and sorted string sets

`hypotheses_tree.rs` stores a `Hypotheses` as a `BTreeSet<String>`: an
ordered, duplicate-free set.  We model it as a strictly sorted `List String`.
`cmpStr` is the `Ord` of Rust `String` (lexicographic over the character
sequence; the hypothesis strings produced by the pretty printer are ASCII, so
character order and byte order agree). -/

def cmpNat (a b : Nat) : Ordering :=
  if a < b then .lt else if b < a then .gt else .eq

def cmpChar (a b : Char) : Ordering := cmpNat a.toNat b.toNat

def cmpCharList : List Char → List Char → Ordering
  | [], [] => .eq
  | [], _ :: _ => .lt
  | _ :: _, [] => .gt
  | c :: cs, d :: ds =>
      match cmpChar c d with
      | .eq => cmpCharList cs ds
      | o => o

def cmpStr (a b : String) : Ordering := cmpCharList a.toList b.toList

/-- `BTreeSet<String>::insert`: ordered insertion without duplicates. -/
def hypInsert (x : String) : List String → List String
  | [] => [x]
  | y :: rest =>
      match cmpStr x y with
      | .lt => x :: y :: rest
      | .eq => y :: rest
      | .gt => y :: hypInsert x rest

/-- `for hyp in inherited { hypotheses.0.insert(hyp); }`: fold insertion. -/
def hypUnionL (base : List String) (xs : List String) : List String :=
  xs.foldl (fun acc h => hypInsert h acc) base

/-- The strict-sortedness invariant of a modelled `BTreeSet<String>`. -/
def HypSorted (l : List String) : Prop := l.Chain' (fun a b => cmpStr a b = .lt)

instance : DecidablePred HypSorted := fun l => by unfold HypSorted; infer_instance

/-! ## `impl Ord for Hypotheses` (from `hypotheses_tree.rs` lines 118–131)

Compare by cardinality first, then by the sorted member lists
lexicographically (the Rust code collects the members, sorts them and uses
`Vec::cmp`). -/

/-- Lexicographic comparison of string lists (Rust `Vec<&String>::cmp`). -/
def cmpStrList : List String → List String → Ordering
  | [], [] => .eq
  | [], _ :: _ => .lt
  | _ :: _, [] => .gt
  | x :: xs, y :: ys =>
      match cmpStr x y with
      | .eq => cmpStrList xs ys
      | o => o

/-- `sort_unstable` on the collected member strings (insertion sort). -/
def insertLe (x : String) : List String → List String
  | [] => [x]
  | y :: rest => if cmpStr x y = .gt then y :: insertLe x rest else x :: y :: rest

def sortStrings (l : List String) : List String := l.foldr insertLe []

/-- `Hypotheses::cmp`: length first, then the sorted member lists. -/
def hypCmp (a b : List String) : Ordering :=
  match cmpNat a.length b.length with
  | .eq => cmpStrList (sortStrings a) (sortStrings b)
  | o => o

/-! ## The hypothesis detector

`hypotheses.rs` is not part of the given sources; only its interface
(`detect_hypotheses : &RExpression -> BTreeSet<Hypothesis>`) is used by
`hypotheses_tree.rs`. -/

mutual

/-- Modelled from the spec: `hypotheses.rs` / `detect_hypotheses` is missing
from the sources.  Per §4.3 the detector recursively walks an expression and
collects, content-deduplicated, the pretty-printed source form of every
two-sided formula subexpression it encounters anywhere in the tree; one-sided
formulae are ignored.  The result models the returned `BTreeSet<Hypothesis>`
as a sorted duplicate-free list. -/
def detectExp (e : RExp) : List String :=
  match e with
  | .Constant _ => []
  | .Variable _ => []
  | .Call f args => hypUnionL (detectExp f) (detectArgs args)
  | .Column l r => hypUnionL (detectExp l) (detectExp r)
  | .Index l idx => hypUnionL (detectExp l) (detectIdx idx)
  | .ListIndex l idx => hypUnionL (detectExp l) (detectIdx idx)
  | .Formula f => detectFormula f
  | .FunctionDef ps body => hypUnionL (detectParams ps) (detectLines body)
  | .PrefixOp _ e => detectExp e
  | .InfixOp _ l r => hypUnionL (detectExp l) (detectExp r)

termination_by structural e

def detectFormula (f : RFormula) : List String :=
  match f with
  | .OneSided r => detectExp r
  | .TwoSided l r =>
      hypInsert (prettyFormula (.TwoSided l r)) (hypUnionL (detectExp l) (detectExp r))

termination_by structural f

def detectArgs (a : ArgList) : List String :=
  match a with
  | .nil => []
  | .cons _ v rest => hypUnionL (detectExp v) (detectArgs rest)

termination_by structural a

def detectIdx (i : IdxList) : List String :=
  match i with
  | .nil => []
  | .consSome e rest => hypUnionL (detectExp e) (detectIdx rest)
  | .consNone rest => detectIdx rest

termination_by structural i

def detectParams (p : ParamList) : List String :=
  match p with
  | .nil => []
  | .consReq _ rest => detectParams rest
  | .consDef _ d rest => hypUnionL (detectExp d) (detectParams rest)

termination_by structural p

def detectLines (l : StmtList) : List String :=
  match l with
  | .nil => []
  | .cons s rest => hypUnionL (detectStmt s) (detectLines rest)

termination_by structural l

def detectStmt (s : RStmt) : List String :=
  match s with
  | .Empty => []
  | .Comment _ => []
  | .TailComment s _ => detectStmt s
  | .Assignment l add r => hypUnionL (detectExp l) (hypUnionL (detectExps add) (detectExp r))
  | .If c body none => hypUnionL (detectExp c) (detectLines body)
  | .If c body (some e) => hypUnionL (detectExp c) (hypUnionL (detectLines body) (detectLines e))
  | .While c body => hypUnionL (detectExp c) (detectLines body)
  | .For p r body => hypUnionL (detectExp p) (hypUnionL (detectExp r) (detectLines body))
  | .Library _ => []
  | .Expression e => detectExp e

termination_by structural s

def detectExps (l : ExpList) : List String :=
  match l with
  | .nil => []
  | .cons e rest => hypUnionL (detectExp e) (detectExps rest)

termination_by structural l

end

/-! ## Association-list helpers (model of `HashMap` with value keys)

Insertion is `cons`, lookup takes the first (most recent) binding, so a later
`insert` of the same key overwrites the earlier one. -/

def alookup {α : Type} [DecidableEq α] {β : Type} (k : α) : List (α × β) → Option β
  | [] => none
  | (k', v) :: rest => if k' = k then some v else alookup k rest

/-! ## The dependency graph

`dependency_graph.rs` is not part of the given sources; only its interface
(`DependencyGraph::from_input`, `.graph()`, `.id()`) is used by
`hypotheses_tree.rs`. -/

/-- Modelled from the spec: `dependency_graph.rs` is missing from the
sources.  §3/§4.2: a directed graph whose nodes are the expressions of the
statements that have an `expression()` (one node per such statement, indexed
in insertion order), whose edges `u → v` mean "`v` reads a variable most
recently written by `u`", with a reverse index from expression value to node
id (`record id_of(expression) = node`, so a duplicated value maps to its
most recent node). -/
structure DependencyGraph where
  nodes : List RExp
  edges : List (Nat × Nat)
  index : List (RExp × Nat)
  env : List (String × Nat)
  deriving Repr

/-- `DependencyGraph::id`: reverse lookup from expression value to node id. -/
def DependencyGraph.id (g : DependencyGraph) (e : RExp) : Option Nat :=
  alookup e g.index

/-- Incoming neighbours of node `n` (`neighbors_directed(n, Incoming)`). -/
def DependencyGraph.incoming (g : DependencyGraph) (n : Nat) : List Nat :=
  g.edges.filterMap (fun p => if p.2 = n then some p.1 else none)

mutual

/-- All variable names read by an expression.  Modelled from the spec:
§4.2 computes the reads of an rhs "by walking it and collecting every
`Variable(name)`". -/
def varsExp (e : RExp) : List String :=
  match e with
  | .Constant _ => []
  | .Variable n => [n]
  | .Call f args => varsExp f ++ varsArgs args
  | .Column l r => varsExp l ++ varsExp r
  | .Index l idx => varsExp l ++ varsIdx idx
  | .ListIndex l idx => varsExp l ++ varsIdx idx
  | .Formula f => varsFormula f
  | .FunctionDef ps body => varsParams ps ++ varsLines body
  | .PrefixOp _ e => varsExp e
  | .InfixOp _ l r => varsExp l ++ varsExp r

termination_by structural e

def varsFormula (f : RFormula) : List String :=
  match f with
  | .OneSided r => varsExp r
  | .TwoSided l r => varsExp l ++ varsExp r

termination_by structural f

def varsArgs (a : ArgList) : List String :=
  match a with
  | .nil => []
  | .cons _ v rest => varsExp v ++ varsArgs rest

termination_by structural a

def varsIdx (i : IdxList) : List String :=
  match i with
  | .nil => []
  | .consSome e rest => varsExp e ++ varsIdx rest
  | .consNone rest => varsIdx rest

termination_by structural i

def varsParams (p : ParamList) : List String :=
  match p with
  | .nil => []
  | .consReq _ rest => varsParams rest
  | .consDef _ d rest => varsExp d ++ varsParams rest

termination_by structural p

def varsLines (l : StmtList) : List String :=
  match l with
  | .nil => []
  | .cons s rest => varsStmt s ++ varsLines rest

termination_by structural l

def varsStmt (s : RStmt) : List String :=
  match s with
  | .Empty => []
  | .Comment _ => []
  | .TailComment s _ => varsStmt s
  | .Assignment l add r => varsExp l ++ varsExps add ++ varsExp r
  | .If c body none => varsExp c ++ varsLines body
  | .If c body (some e) => varsExp c ++ varsLines body ++ varsLines e
  | .While c body => varsExp c ++ varsLines body
  | .For p r body => varsExp p ++ varsExp r ++ varsLines body
  | .Library _ => []
  | .Expression e => varsExp e

termination_by structural s

def varsExps (l : ExpList) : List String :=
  match l with
  | .nil => []
  | .cons e rest => varsExp e ++ varsExps rest

termination_by structural l

end

/-- Modelled from the spec: §4.2 step 2 — the written identifier of a
statement: for an assignment, `extract_variable_name(lhs)` (panic modelled as
`.error`), for a tail comment the wrapped statement's writes, nothing
otherwise. -/
def writesOf : RStmt → Except Unit (Option String)
  | .Assignment l _ _ => extract_variable_name l
  | .TailComment s _ => writesOf s
  | _ => .ok none

/-- Modelled from the spec: §4.2 — for one statement with an `expression()`,
insert a node for the rhs expression, add an edge from the most recent prior
writer of every identifier it reads, record the reverse index, and record the
statement's writes in the writer environment. -/
def graphStep (st : DependencyGraph) (stmt : RStmt) : Except Unit DependencyGraph :=
  match stmt.expression with
  | none => .ok st
  | some e => do
      let node := st.nodes.length
      let reads := (varsExp e).eraseDups
      let newEdges := reads.filterMap (fun v => (alookup v st.env).map (fun w => (w, node)))
      let w ← writesOf stmt
      let env' := match w with
        | some name => (name, node) :: st.env
        | none => st.env
      .ok { nodes := st.nodes ++ [e], edges := st.edges ++ newEdges,
            index := (e, node) :: st.index, env := env' }

def buildGraphFrom (st : DependencyGraph) : List RStmt → Except Unit DependencyGraph
  | [] => .ok st
  | stmt :: rest => do
      let st' ← graphStep st stmt
      buildGraphFrom st' rest

/-- Modelled from the spec: `DependencyGraph::from_input` — fold
`graphStep` over the statements in source order. -/
def build_graph (stmts : List RStmt) : Except Unit DependencyGraph :=
  buildGraphFrom { nodes := [], edges := [], index := [], env := [] } stmts

/-! ## The hypothesis tree (from `hypotheses_tree.rs`)

`RefNode`s are identified by their creation index ("serial"); the mutable
`children` maps are modelled as append logs of `(hypotheses id, child
serial)` pairs, and `node_map` / `expression_map` as most-recent-first
association lists.  The `BTreeMap` grouping and `Rc` unwrapping of `convert`
happen in `convertLog` below. -/

structure RefNodeM where
  graphId : Nat
  children : List (Nat × Nat)
  deriving Repr, DecidableEq

structure BuildState where
  root : List (Nat × Nat)
  expressionMap : List (RExp × Nat)
  hypothesesMap : List (List String)
  nodeMap : List (Nat × Nat)
  nodes : List RefNodeM
  deriving Repr

def initialBuildState : BuildState :=
  { root := [], expressionMap := [], hypothesesMap := [], nodeMap := [], nodes := [] }

/-- The position of the first element equal to `item`
(`self.hypotheses.iter().position(|hyp| *hyp == item)`). -/
def findEqIdx (item : List String) : List (List String) → Option Nat
  | [] => none
  | h :: rest => if h = item then some 0 else (findEqIdx item rest).map (· + 1)

/-- `HypothesesMap::insert` (`hypotheses_tree.rs` lines 40–48): the position
of an equal stored set, else append and return the new last index. -/
def hypothesesMapInsert (m : List (List String)) (item : List String) :
    Nat × List (List String) :=
  match findEqIdx item m with
  | some index => (index, m)
  | none => (m.length, m ++ [item])

/-- `Option`-valued map over a list (the `map`/`collect` of the inherited
hypotheses loop). -/
def mapMO {α β : Type} (f : α → Option β) : List α → Option (List β)
  | [] => some []
  | a :: rest => do
      let b ← f a
      let bs ← mapMO f rest
      some (b :: bs)

/-- `collect_hypotheses` (`hypotheses_tree.rs` lines 207–252).  Returns the
updated hypotheses map and expression map; `none` models the `unwrap`
panics. -/
def collect_hypotheses (g : DependencyGraph) (e : RExp)
    (hypothesesMap : List (List String)) (expressionMap : List (RExp × Nat)) :
    Option (List (List String) × List (RExp × Nat)) := do
  let nodeId ← g.id e
  let inheritedLists ← mapMO (fun p => do
      let exp ← g.nodes[p]?
      match alookup exp expressionMap with
      | some id => hypothesesMap[id]?
      | none => some (detectExp exp)) (g.incoming nodeId)
  let inherited := inheritedLists.flatten
  match alookup e expressionMap with
  | some id => do
      let hyps ← hypothesesMap[id]?
      some (hypothesesMap.set id (hypUnionL hyps inherited), (e, id) :: expressionMap)
  | none =>
      let hyps := hypUnionL (detectExp e) inherited
      let (id, hm) := hypothesesMapInsert hypothesesMap hyps
      some (hm, (e, id) :: expressionMap)

/-- One iteration of the `for expression in expressions` loop of
`parse_hypothesis_tree` (`hypotheses_tree.rs` lines 149–185).  The source
sorts the incoming neighbours ascending and takes the last element, i.e.
their maximum. -/
def treeStep (g : DependencyGraph) (st : BuildState) (e : RExp) : Option BuildState := do
  let (hm, em) ← collect_hypotheses g e st.hypothesesMap st.expressionMap
  let hypothesesId ← alookup e em
  let nodeId ← g.id e
  let serial := st.nodes.length
  let newNode : RefNodeM := { graphId := nodeId, children := [] }
  let parents := g.incoming nodeId
  match parents.max? with
  | some m => do
      let ps ← alookup m st.nodeMap
      let pnode ← st.nodes[ps]?
      let nodes' := st.nodes.set ps
        { pnode with children := pnode.children ++ [(hypothesesId, serial)] }
      some { root := st.root, expressionMap := em, hypothesesMap := hm,
             nodeMap := (nodeId, serial) :: st.nodeMap,
             nodes := nodes' ++ [newNode] }
  | none =>
      some { root := st.root ++ [(hypothesesId, serial)],
             expressionMap := em, hypothesesMap := hm,
             nodeMap := (nodeId, serial) :: st.nodeMap,
             nodes := st.nodes ++ [newNode] }

def runBuild (g : DependencyGraph) : List RExp → BuildState → Option BuildState
  | [], st => some st
  | e :: rest, st =>
      match treeStep g st e with
      | none => none
      | some st' => runBuild g rest st'

/-! ### The finished tree (`HypothesisTree`, `Node`, `Branches`)

`Branches` is a `BTreeMap<HypothesesId, Vec<Node>>`: iterated in ascending
id order, each bucket in insertion order. -/

mutual

inductive HNode where
  | mk (content : RExp) (children : HBranches)
  deriving Repr

inductive HBranches where
  | nil
  | cons (id : Nat) (nodes : HNodeList) (rest : HBranches)
  deriving Repr

inductive HNodeList where
  | nil
  | cons (n : HNode) (rest : HNodeList)
  deriving Repr

end

structure HypothesisTree where
  root : HBranches
  hypotheses : List (Nat × List String)
  deriving Repr

def insertNat (x : Nat) : List Nat → List Nat
  | [] => [x]
  | y :: rest => if x ≤ y then x :: y :: rest else y :: insertNat x rest

def sortNat (l : List Nat) : List Nat := l.foldr insertNat []

/-- Distinct members of a key list (order irrelevant: sorted below). -/
def dedupKeys : List Nat → List Nat
  | [] => []
  | k :: rest => if k ∈ rest then dedupKeys rest else k :: dedupKeys rest

/-- The distinct keys of an append log, in ascending `BTreeMap` order. -/
def bucketKeys (log : List (Nat × Nat)) : List Nat :=
  sortNat (dedupKeys (log.map Prod.fst))

/-- The serials filed under key `k`, in insertion order. -/
def bucket (log : List (Nat × Nat)) (k : Nat) : List Nat :=
  log.filterMap (fun p => if p.1 = k then some p.2 else none)

/-- Node content: `dependency_graph.graph()[ref_node.id]`.  The defaults are
unreachable for states produced by `runBuild`. -/
def contentAt (g : DependencyGraph) (nodes : List RefNodeM) (s : Nat) : RExp :=
  match nodes[s]? with
  | some rn => g.nodes.getD rn.graphId (RExp.Constant "")
  | none => RExp.Constant ""

def childrenAt (nodes : List RefNodeM) (s : Nat) : List (Nat × Nat) :=
  match nodes[s]? with
  | some rn => rn.children
  | none => []

/-- Conversion of a run of serials filed under one key, in insertion order,
given the converter `f` for a single serial. -/
def convertSerials (f : Nat → HNode) : List Nat → HNodeList
  | [] => .nil
  | s :: ss => .cons (f s) (convertSerials f ss)

def convertKeyed (f : Nat → HNode) (log : List (Nat × Nat)) : List Nat → HBranches
  | [] => .nil
  | k :: ks => .cons k (convertSerials f (bucket log k)) (convertKeyed f log ks)

/-- Grouping of an append log into `Branches`: ascending key order, each
bucket in insertion order. -/
def convertLog (f : Nat → HNode) (log : List (Nat × Nat)) : HBranches :=
  convertKeyed f log (bucketKeys log)

/-- `convert` (`hypotheses_tree.rs` lines 94–113) on one `RefNode`, by fuel;
with fuel at least `nodes.length - s` the fuel never runs out because child
serials strictly exceed their parent's. -/
def convertSerial (g : DependencyGraph) (nodes : List RefNodeM) :
    Nat → Nat → HNode
  | 0, s => .mk (contentAt g nodes s) .nil
  | fuel + 1, s =>
      .mk (contentAt g nodes s)
        (convertLog (fun c => convertSerial g nodes fuel c) (childrenAt nodes s))

termination_by structural fuel => fuel

/-- The final tree of `parse_hypothesis_tree`: converted root plus
`hypotheses_map.into_map()` (the ids enumerate insertion order). -/
def convertState (g : DependencyGraph) (st : BuildState) : HypothesisTree :=
  { root := convertLog (fun c => convertSerial g st.nodes st.nodes.length c) st.root,
    hypotheses := st.hypothesesMap.enum }

/-- `parse_hypothesis_tree` (`hypotheses_tree.rs` lines 139–205): process the
`expression()` of each statement in order, then convert.  `none` models the
panics (`unwrap`s) of the source. -/
def parse_hypothesis_tree (input : List RStmt) (g : DependencyGraph) :
    Option HypothesisTree :=
  (runBuild g (input.filterMap RStmt.expression) initialBuildState).map (convertState g)

/-! ### Counting node contents in a finished tree -/

mutual

def countNode (e : RExp) : HNode → Nat
  | .mk c ch => (if c = e then 1 else 0) + countBranches e ch

def countBranches (e : RExp) : HBranches → Nat
  | .nil => 0
  | .cons _ ns rest => countNodeList e ns + countBranches e rest

def countNodeList (e : RExp) : HNodeList → Nat
  | .nil => 0
  | .cons n rest => countNode e n + countNodeList e rest

end

/-- How often an expression occurs as a node content in the tree. -/
def countTree (e : RExp) (t : HypothesisTree) : Nat := countBranches e t.root

/-! ## Claim C7 -/

/-- C7: `RStmt::expression` returns `some` exactly for `Assignment` (its
rhs), `Expression` (its expression) and `TailComment` (the wrapped
statement's result), and `none` for `Empty`, `Comment`, `If`, `While`, `For`
and `Library` statements. -/
theorem claim_C7 :
    (∀ l add r, (RStmt.Assignment l add r).expression = some r) ∧
    (∀ e, (RStmt.Expression e).expression = some e) ∧
    (∀ s c, (RStmt.TailComment s c).expression = s.expression) ∧
    (∀ c b eb, (RStmt.If c b eb).expression = none) ∧
    (∀ c b, (RStmt.While c b).expression = none) ∧
    (∀ p r b, (RStmt.For p r b).expression = none) ∧
    RStmt.Empty.expression = none ∧
    (∀ t, (RStmt.Comment t).expression = none) ∧
    (∀ n, (RStmt.Library n).expression = none) :=
  ⟨fun _ _ _ => rfl, fun _ => rfl, fun _ _ => rfl, fun _ _ _ => rfl, fun _ _ => rfl,
   fun _ _ _ => rfl, rfl, fun _ => rfl, fun _ => rfl⟩

/-! ## Claim C8 -/

/-- C8: `extract_variable_name` yields a name for a `Variable` (its own
name), descends through the base of `Column` and `Index`, descends into the
single argument of a call of `colnames`/`rownames`/`names`, returns `none`
for a call of any other named function or of those functions at a different
arity, and returns `none` for every remaining expression form. -/
theorem claim_C8 :
    (∀ n, extract_variable_name (.Variable n) = .ok (some n)) ∧
    (∀ l r, extract_variable_name (.Column l r) = extract_variable_name l) ∧
    (∀ l i, extract_variable_name (.Index l i) = extract_variable_name l) ∧
    (∀ f nm v fn, extract_variable_name f = .ok (some fn) → fn ∈ validFunctions →
      extract_variable_name (.Call f (.cons nm v .nil)) = extract_variable_name v) ∧
    (∀ f args fn, extract_variable_name f = .ok (some fn) →
      fn ∉ validFunctions ∨ args.length ≠ 1 →
      extract_variable_name (.Call f args) = .ok none) ∧
    (∀ s, extract_variable_name (.Constant s) = .ok none) ∧
    (∀ l i, extract_variable_name (.ListIndex l i) = .ok none) ∧
    (∀ f, extract_variable_name (.Formula f) = .ok none) ∧
    (∀ p b, extract_variable_name (.FunctionDef p b) = .ok none) ∧
    (∀ o e, extract_variable_name (.PrefixOp o e) = .ok none) ∧
    (∀ o l r, extract_variable_name (.InfixOp o l r) = .ok none) := by
  refine ⟨fun _ => rfl, fun _ _ => rfl, fun _ _ => rfl, ?_, ?_, fun _ => rfl,
    fun _ _ => rfl, fun _ => rfl, fun _ _ => rfl, fun _ _ => rfl, fun _ _ _ => rfl⟩
  · intro f nm v fn hf hvalid
    simp only [extract_variable_name, extractCallCase, hf]
    rw [if_pos ⟨hvalid, rfl⟩]
  · intro f args fn hf hne
    have hif : ¬ (fn ∈ validFunctions ∧ args.length = 1) := by
      rcases hne with h | h
      · exact fun hc => h hc.1
      · exact fun hc => h hc.2
    cases args with
    | nil => simp only [extract_variable_name, extractCallCase, hf]; rw [if_neg hif]
    | cons nm v rest =>
        cases rest with
        | nil => simp only [extract_variable_name, extractCallCase, hf]; rw [if_neg hif]
        | cons nm' w rest' =>
            simp only [extract_variable_name, extractCallCase, hf]; rw [if_neg hif]

/-- Witness for C8: `colnames(x)` extracts `x`, `plot(x)` extracts
nothing. -/
theorem claim_C8_witness :
    extract_variable_name (.Variable "colnames") = .ok (some "colnames") ∧
    "colnames" ∈ validFunctions ∧
    extract_variable_name (.Call (.Variable "colnames") (.cons none (.Variable "x") .nil)) =
      .ok (some "x") ∧
    extract_variable_name (.Call (.Variable "plot") (.cons none (.Variable "x") .nil)) =
      .ok none :=
  ⟨rfl, by decide, by
    rw [claim_C8.2.2.2.1 (.Variable "colnames") none (.Variable "x") "colnames" rfl (by decide)]
    rfl,
   claim_C8.2.2.2.2.1 (.Variable "plot") (.cons none (.Variable "x") .nil) "plot" rfl
     (Or.inl (by decide))⟩

/-! ## Claim C10 -/

/-- Does `extract_variable_name` succeed with an actual name?  (An `.ok
none` callee makes the enclosing `Call` panic.) -/
def yieldsName (e : RExp) : Bool :=
  match extract_variable_name e with
  | .ok (some _) => true
  | _ => false

/-- Whether the single argument of a call is descended into: only when the
callee named a `colnames`/`rownames`/`names` function. -/
def descendArg (calleeRes : Except Unit (Option String)) (argOk : Bool) : Bool :=
  match calleeRes with
  | .ok (some fn) => if fn ∈ validFunctions then argOk else true
  | _ => true

/-- The condition of claim C10: along the descent of
`extract_variable_name` — the base of `Column`/`Index`, the callee of every
`Call`, and the single argument of a `colnames`/`rownames`/`names` call —
the callee of every `Call` yields a variable name. -/
def calleesOk : RExp → Bool
  | .Column l _ => calleesOk l
  | .Index l _ => calleesOk l
  | .Call f args =>
      yieldsName f &&
        (match args with
         | .cons _ v .nil => descendArg (extract_variable_name f) (calleesOk v)
         | _ => true)
  | _ => true

theorem yieldsName_iff (e : RExp) :
    yieldsName e = true ↔ ∃ fn, extract_variable_name e = .ok (some fn) := by
  unfold yieldsName
  rcases h : extract_variable_name e with u | r
  · simp
  · rcases r with _ | fn <;> simp

theorem extract_ok_of_calleesOk :
    ∀ e, calleesOk e = true → (extract_variable_name e).isOk = true
  | .Constant _, _ => rfl
  | .Variable _, _ => rfl
  | .Column l r, h => by
      have := extract_ok_of_calleesOk l (by simpa [calleesOk] using h)
      simpa [extract_variable_name] using this
  | .Index l i, h => by
      have := extract_ok_of_calleesOk l (by simpa [calleesOk] using h)
      simpa [extract_variable_name] using this
  | .Call f args, h => by
      cases args with
      | nil =>
          simp only [calleesOk, Bool.and_eq_true] at h
          obtain ⟨fn, hef⟩ := (yieldsName_iff f).mp h.1
          simp [extract_variable_name, extractCallCase, hef, ArgList.length,
            Except.isOk, Except.toBool]
      | cons nm v rest =>
          cases rest with
          | nil =>
              simp only [calleesOk, Bool.and_eq_true] at h
              obtain ⟨hy, hrest⟩ := h
              obtain ⟨fn, hef⟩ := (yieldsName_iff f).mp hy
              rw [hef] at hrest
              simp only [descendArg] at hrest
              by_cases hv : fn ∈ validFunctions
              · rw [if_pos hv] at hrest
                have := extract_ok_of_calleesOk v hrest
                simp only [extract_variable_name, extractCallCase, hef]
                rw [if_pos ⟨hv, rfl⟩]
                exact this
              · simp only [extract_variable_name, extractCallCase, hef]
                rw [if_neg (fun hc => hv hc.1)]
                rfl
          | cons nm' w rest' =>
              simp only [calleesOk, Bool.and_eq_true] at h
              obtain ⟨fn, hef⟩ := (yieldsName_iff f).mp h.1
              simp only [extract_variable_name, extractCallCase, hef]
              rw [if_neg (by simp [ArgList.length])]
              rfl
  | .ListIndex _ _, _ => rfl
  | .Formula _, _ => rfl
  | .FunctionDef _ _, _ => rfl
  | .PrefixOp _ _, _ => rfl
  | .InfixOp _ _ _, _ => rfl

/-- C10: `extract_variable_name` panics on a `Call` whose callee yields no
variable name — concretely on `Call(Constant "1", [])` — and returns
normally whenever the callee of every `Call` it descends into yields a
variable name. -/
theorem claim_C10 :
    extract_variable_name (.Call (.Constant "1") .nil) = .error () ∧
    (∀ e, calleesOk e = true → (extract_variable_name e).isOk = true) :=
  ⟨rfl, extract_ok_of_calleesOk⟩

/-- Witness for C10: `colnames(x)$a[1]`-style nesting satisfies the callee
condition and extraction returns normally. -/
theorem claim_C10_witness :
    calleesOk (.Index (.Column (.Call (.Variable "colnames")
      (.cons none (.Variable "x") .nil)) (.Variable "a")) .nil) = true ∧
    (extract_variable_name (.Index (.Column (.Call (.Variable "colnames")
      (.cons none (.Variable "x") .nil)) (.Variable "a")) .nil)).isOk = true :=
  ⟨by decide, claim_C10.2 _ (by decide)⟩


/-! ## Order facts and claim C9 -/

theorem cmpNat_cases (a b : Nat) :
    (cmpNat a b = .lt ∧ a < b) ∨ (cmpNat a b = .eq ∧ a = b) ∨ (cmpNat a b = .gt ∧ b < a) := by
  unfold cmpNat
  split <;> rename_i h
  · exact Or.inl ⟨rfl, h⟩
  · split <;> rename_i h2
    · exact Or.inr (Or.inr ⟨rfl, h2⟩)
    · exact Or.inr (Or.inl ⟨rfl, by omega⟩)

theorem charToNat_inj {a b : Char} (h : a.toNat = b.toNat) : a = b :=
  Char.le_antisymm (Nat.le_of_eq h) (Nat.le_of_eq h.symm)

theorem cmpChar_cases (a b : Char) :
    (cmpChar a b = .lt ∧ a < b) ∨ (cmpChar a b = .eq ∧ a = b) ∨ (cmpChar a b = .gt ∧ b < a) := by
  unfold cmpChar
  rcases cmpNat_cases a.toNat b.toNat with ⟨h, hlt⟩ | ⟨h, heq⟩ | ⟨h, hgt⟩
  · exact Or.inl ⟨h, hlt⟩
  · exact Or.inr (Or.inl ⟨h, charToNat_inj heq⟩)
  · exact Or.inr (Or.inr ⟨h, hgt⟩)

theorem cmpCharList_cases : ∀ cs ds : List Char,
    (cmpCharList cs ds = .lt ∧ List.Lex (· < ·) cs ds) ∨
    (cmpCharList cs ds = .eq ∧ cs = ds) ∨
    (cmpCharList cs ds = .gt ∧ List.Lex (· < ·) ds cs)
  | [], [] => Or.inr (Or.inl ⟨rfl, rfl⟩)
  | [], _ :: _ => Or.inl ⟨rfl, List.Lex.nil⟩
  | _ :: _, [] => Or.inr (Or.inr ⟨rfl, List.Lex.nil⟩)
  | c :: cs, d :: ds => by
      rcases cmpChar_cases c d with ⟨h, hlt⟩ | ⟨h, heq⟩ | ⟨h, hgt⟩
      · exact Or.inl ⟨by unfold cmpCharList; rw [h], List.Lex.rel hlt⟩
      · subst heq
        rcases cmpCharList_cases cs ds with ⟨h2, hl⟩ | ⟨h2, he⟩ | ⟨h2, hg⟩
        · exact Or.inl ⟨by unfold cmpCharList; rw [h, h2], List.Lex.cons hl⟩
        · exact Or.inr (Or.inl ⟨by unfold cmpCharList; rw [h, h2], by rw [he]⟩)
        · exact Or.inr (Or.inr ⟨by unfold cmpCharList; rw [h, h2], List.Lex.cons hg⟩)
      · exact Or.inr (Or.inr ⟨by unfold cmpCharList; rw [h], List.Lex.rel hgt⟩)

theorem cmpStr_cases (a b : String) :
    (cmpStr a b = .lt ∧ a < b) ∨ (cmpStr a b = .eq ∧ a = b) ∨ (cmpStr a b = .gt ∧ b < a) := by
  unfold cmpStr
  rcases cmpCharList_cases a.toList b.toList with ⟨h, hl⟩ | ⟨h, he⟩ | ⟨h, hg⟩
  · exact Or.inl ⟨h, String.lt_iff_toList_lt.mpr hl⟩
  · exact Or.inr (Or.inl ⟨h, String.toList_inj.mp he⟩)
  · exact Or.inr (Or.inr ⟨h, String.lt_iff_toList_lt.mpr hg⟩)

theorem cmpStr_eq_iff (a b : String) : cmpStr a b = .eq ↔ a = b := by
  rcases cmpStr_cases a b with ⟨h, hl⟩ | ⟨h, he⟩ | ⟨h, hg⟩
  · rw [h]
    exact iff_of_false (by intro hh; cases hh) (fun hab => absurd (hab ▸ hl) (lt_irrefl _))
  · rw [h]
    exact iff_of_true rfl he
  · rw [h]
    exact iff_of_false (by intro hh; cases hh) (fun hab => absurd (hab ▸ hg) (lt_irrefl _))

theorem cmpStr_lt_iff (a b : String) : cmpStr a b = .lt ↔ a < b := by
  rcases cmpStr_cases a b with ⟨h, hl⟩ | ⟨h, he⟩ | ⟨h, hg⟩
  · rw [h]; exact iff_of_true rfl hl
  · rw [h]
    exact iff_of_false (by intro hh; cases hh) (fun hab => absurd (he ▸ hab) (lt_irrefl _))
  · rw [h]
    exact iff_of_false (by intro hh; cases hh) (fun hab => absurd (lt_trans hab hg) (lt_irrefl _))

theorem cmpStrList_cases : ∀ a b : List String,
    (cmpStrList a b = .lt ∧ List.Lex (· < ·) a b) ∨
    (cmpStrList a b = .eq ∧ a = b) ∨
    (cmpStrList a b = .gt ∧ List.Lex (· < ·) b a)
  | [], [] => Or.inr (Or.inl ⟨rfl, rfl⟩)
  | [], _ :: _ => Or.inl ⟨rfl, List.Lex.nil⟩
  | _ :: _, [] => Or.inr (Or.inr ⟨rfl, List.Lex.nil⟩)
  | c :: cs, d :: ds => by
      rcases cmpStr_cases c d with ⟨h, hlt⟩ | ⟨h, heq⟩ | ⟨h, hgt⟩
      · exact Or.inl ⟨by unfold cmpStrList; rw [h], List.Lex.rel hlt⟩
      · subst heq
        rcases cmpStrList_cases cs ds with ⟨h2, hl⟩ | ⟨h2, he⟩ | ⟨h2, hg⟩
        · exact Or.inl ⟨by unfold cmpStrList; rw [h, h2], List.Lex.cons hl⟩
        · exact Or.inr (Or.inl ⟨by unfold cmpStrList; rw [h, h2], by rw [he]⟩)
        · exact Or.inr (Or.inr ⟨by unfold cmpStrList; rw [h, h2], List.Lex.cons hg⟩)
      · exact Or.inr (Or.inr ⟨by unfold cmpStrList; rw [h], List.Lex.rel hgt⟩)

theorem hypSorted_cons {x y : String} {r : List String}
    (h : HypSorted (x :: y :: r)) : cmpStr x y = .lt ∧ HypSorted (y :: r) := by
  unfold HypSorted at *
  rw [List.chain'_cons] at h
  exact h

theorem sortStrings_of_sorted : ∀ l : List String, HypSorted l → sortStrings l = l
  | [], _ => rfl
  | [x], _ => rfl
  | x :: y :: r, h => by
      obtain ⟨hxy, hrest⟩ := hypSorted_cons h
      have : sortStrings (x :: y :: r) = insertLe x (sortStrings (y :: r)) := rfl
      rw [this, sortStrings_of_sorted (y :: r) hrest]
      unfold insertLe
      rw [if_neg (by rw [hxy]; intro hh; cases hh)]

/-- C9: the derived `Ord` of `Hypotheses` is content-based: `a <= b` (that
is, `cmp` does not return `Greater`) holds iff `a` has smaller cardinality,
or the cardinalities are equal and the lexicographically sorted member list
of `a` is lexicographically at most that of `b`; and order-equality
coincides with value equality of the sets. -/
theorem claim_C9 (a b : List String) (ha : HypSorted a) (hb : HypSorted b) :
    ((hypCmp a b ≠ .gt) ↔
      (a.length < b.length ∨
       (a.length = b.length ∧ (a = b ∨ List.Lex (· < ·) a b)))) ∧
    ((hypCmp a b = .eq) ↔ a = b) := by
  unfold hypCmp
  rw [sortStrings_of_sorted a ha, sortStrings_of_sorted b hb]
  rcases cmpNat_cases a.length b.length with ⟨h, hlt⟩ | ⟨h, heq⟩ | ⟨h, hgt⟩
  · simp only [h]
    constructor
    · exact iff_of_true (by intro hh; cases hh) (Or.inl hlt)
    · refine iff_of_false (by intro hh; cases hh) (fun hab => ?_)
      rw [hab] at hlt
      exact absurd hlt (lt_irrefl _)
  · simp only [h]
    rcases cmpStrList_cases a b with ⟨h2, hl⟩ | ⟨h2, he⟩ | ⟨h2, hg⟩
    · rw [h2]
      constructor
      · exact iff_of_true (by intro hh; cases hh) (Or.inr ⟨heq, Or.inr hl⟩)
      · refine iff_of_false (by intro hh; cases hh) (fun hab => ?_)
        subst hab
        exact absurd hl (fun hx => asymm hx hx)
    · rw [h2]
      constructor
      · exact iff_of_true (by intro hh; cases hh) (Or.inr ⟨heq, Or.inl he⟩)
      · exact iff_of_true rfl he
    · rw [h2]
      constructor
      · refine iff_of_false (fun hh => hh rfl) ?_
        rintro (hlen | ⟨_, (rfl | hlex)⟩)
        · omega
        · exact absurd hg (fun hx => asymm hx hx)
        · exact asymm hlex hg
      · refine iff_of_false (by intro hh; cases hh) (fun hab => ?_)
        subst hab
        exact absurd hg (fun hx => asymm hx hx)
  · simp only [h]
    constructor
    · refine iff_of_false (fun hh => hh rfl) ?_
      rintro (hlen | ⟨hlen, _⟩) <;> omega
    · refine iff_of_false (by intro hh; cases hh) (fun hab => ?_)
      rw [hab] at hgt
      exact absurd hgt (lt_irrefl _)

def hypSortedB : List String → Bool
  | [] => true
  | [_] => true
  | x :: y :: r =>
      match cmpStr x y with
      | .lt => hypSortedB (y :: r)
      | _ => false

theorem hypSortedB_iff : ∀ l : List String, hypSortedB l = true ↔ HypSorted l
  | [] => by simp [hypSortedB, HypSorted]
  | [x] => by simp [hypSortedB, HypSorted]
  | x :: y :: r => by
      unfold hypSortedB
      unfold HypSorted
      rw [List.chain'_cons]
      rcases h : cmpStr x y with _ | _ | _
      · simp only [h]
        rw [hypSortedB_iff (y :: r)]
        unfold HypSorted
        simp
      · simp [h]
      · simp [h]

instance hypSortedDec : DecidablePred HypSorted := fun l =>
  decidable_of_iff _ (hypSortedB_iff l)

/-- Witness for C9 at two concrete sorted hypothesis sets. -/
theorem claim_C9_witness :
    HypSorted ["Speed ~ Layout"] ∧ HypSorted ["Alpha ~ Beta", "Speed ~ Layout"] ∧
    ((((hypCmp ["Speed ~ Layout"] ["Alpha ~ Beta", "Speed ~ Layout"] ≠ .gt) ↔
       ((["Speed ~ Layout"] : List String).length <
          (["Alpha ~ Beta", "Speed ~ Layout"] : List String).length ∨
        ((["Speed ~ Layout"] : List String).length =
            (["Alpha ~ Beta", "Speed ~ Layout"] : List String).length ∧
         (["Speed ~ Layout"] = ["Alpha ~ Beta", "Speed ~ Layout"] ∨
          List.Lex (· < ·) ["Speed ~ Layout"] ["Alpha ~ Beta", "Speed ~ Layout"])))) ∧
      ((hypCmp ["Speed ~ Layout"] ["Alpha ~ Beta", "Speed ~ Layout"] = .eq) ↔
        ["Speed ~ Layout"] = ["Alpha ~ Beta", "Speed ~ Layout"]))) :=
  ⟨by decide, by decide, claim_C9 _ _ (by decide) (by decide)⟩

/-! ## The modelled parser (for claims C5 and C6) -/

/-! Character-level helpers for the modelled parser. -/

def leftBrace : Char := Char.ofNat 123
def rightBrace : Char := Char.ofNat 125

def isWsChar (c : Char) : Bool := c = ' ' || c = '\t' || c = '\r'

def skipWs : List Char → List Char
  | c :: rest => if isWsChar c then skipWs rest else c :: rest
  | [] => []

def skipWsNl : List Char → List Char
  | c :: rest => if isWsChar c || c = '\n' then skipWsNl rest else c :: rest
  | [] => []

def identStartChar (c : Char) : Bool := c.isAlpha || c = '_'

def identContChar (c : Char) : Bool := c.isAlphanum || c = '_' || c = '.'

/-- Identifier continuation: plain identifier characters, with `::` allowed
as a namespace separator. -/
def identRest : List Char → (List Char × List Char)
  | ':' :: ':' :: rest =>
      let (tk, rem) := identRest rest
      (':' :: ':' :: tk, rem)
  | c :: rest =>
      if identContChar c then
        let (tk, rem) := identRest rest
        (c :: tk, rem)
      else ([], c :: rest)
  | [] => ([], [])

def scanIdent : List Char → Option (String × List Char)
  | c :: rest =>
      if identStartChar c then
        let (tk, rem) := identRest rest
        some (String.mk (c :: tk), rem)
      else none
  | [] => none

def takeDigits : List Char → (List Char × List Char)
  | c :: rest =>
      if c.isDigit then
        let (tk, rem) := takeDigits rest
        (c :: tk, rem)
      else ([], c :: rest)
  | [] => ([], [])

/-- Exponent part `e[+-]?digits` of a numeric literal, if well formed. -/
def scanExponent : List Char → Option (List Char × List Char)
  | c :: rest =>
      if c = 'e' || c = 'E' then
        match rest with
        | s :: rest2 =>
            if s = '+' || s = '-' then
              match takeDigits rest2 with
              | ([], _) => none
              | (ds, rem) => some (c :: s :: ds, rem)
            else
              match takeDigits rest with
              | ([], _) => none
              | (ds, rem) => some (c :: ds, rem)
        | [] => none
      else none
  | [] => none

/-- Numeric literal: digits with optional decimal point and exponent, or a
leading decimal point followed by digits.  The text is kept verbatim. -/
def scanNumber (input : List Char) : Option (String × List Char) :=
  let (intPart, r1) := takeDigits input
  let (fracPart, r2) :=
    match r1 with
    | '.' :: rest =>
        (match takeDigits rest with
         | ([], _) => (([] : List Char), r1)
         | (ds, rem) => ('.' :: ds, rem))
    | _ => ([], r1)
  if intPart.isEmpty && fracPart.isEmpty then none
  else
    match scanExponent r2 with
    | some (ex, r3) => some (String.mk (intPart ++ fracPart ++ ex), r3)
    | none => some (String.mk (intPart ++ fracPart), r2)

/-- String literal in one of the three quote styles, kept verbatim with its
quotes. -/
def scanStringBody (q : Char) : List Char → Option (List Char × List Char)
  | c :: rest =>
      if c = q then some ([c], rest)
      else
        match scanStringBody q rest with
        | some (tk, rem) => some (c :: tk, rem)
        | none => none
  | [] => none

def scanQuoted : List Char → Option (String × List Char)
  | c :: rest =>
      if c = '"' || c = '\'' || c = '`' then
        match scanStringBody c rest with
        | some (tk, rem) => some (String.mk (c :: tk), rem)
        | none => none
      else none
  | [] => none

/-- Infix operator lexing, longest match first.  `<-` and a single `=` are
assignment syntax, not infix operators. -/
def scanOp : List Char → Option (String × List Char)
  | '<' :: '-' :: _ => none
  | '<' :: '=' :: rest => some ("<=", rest)
  | '>' :: '=' :: rest => some (">=", rest)
  | '=' :: '=' :: rest => some ("==", rest)
  | '!' :: '=' :: rest => some ("!=", rest)
  | '&' :: '&' :: rest => some ("&&", rest)
  | '|' :: '|' :: rest => some ("||", rest)
  | '<' :: rest => some ("<", rest)
  | '>' :: rest => some (">", rest)
  | '+' :: rest => some ("+", rest)
  | '-' :: rest => some ("-", rest)
  | '*' :: rest => some ("*", rest)
  | '/' :: rest => some ("/", rest)
  | ':' :: rest => some (":", rest)
  | '&' :: rest => some ("&", rest)
  | '|' :: rest => some ("|", rest)
  | '%' :: rest =>
      match scanStringBody '%' rest with
      | some (tk, rem) => some (String.mk ('%' :: tk), rem)
      | none => none
  | _ => none

/-- The right-hand side of a `$` column access: a plain name, string or
number. -/
def scanColumnAtom (input : List Char) : Option (RExp × List Char) :=
  match scanIdent input with
  | some (n, rem) => some (.Variable n, rem)
  | none =>
      match scanQuoted input with
      | some (s, rem) => some (.Constant s, rem)
      | none =>
          match scanNumber input with
          | some (s, rem) => some (.Constant s, rem)
          | none => none

/-- Boolean literals lex as constants (see the `parses_prefix_operators` and
`parses_while` test expectations). -/
def boolLiterals : List String := ["TRUE", "FALSE", "true", "false"]

def idxOfList : List (Option RExp) → IdxList
  | [] => .nil
  | some e :: rest => .consSome e (idxOfList rest)
  | none :: rest => .consNone (idxOfList rest)

def paramsOfList : List (String × Option RExp) → ParamList
  | [] => .nil
  | (n, none) :: rest => .consReq n (paramsOfList rest)
  | (n, some d) :: rest => .consDef n d (paramsOfList rest)

/-- `library(name)` statements. -/
def pLibrary (input : List Char) : Option (RStmt × List Char) :=
  match scanIdent input with
  | some ("library", r1) =>
      match skipWs r1 with
      | '(' :: r2 =>
          match scanIdent (skipWsNl r2) with
          | some (n, r3) =>
              match skipWsNl r3 with
              | ')' :: r4 => some (.Library n, r4)
              | _ => none
          | none => none
      | _ => none
  | _ => none



mutual

/-- Modelled from the spec: the grammar (`r.pest`) and the pest engine are
not part of the sources.  §4.1: expressions are a primary followed by
postfix/infix continuations. -/
def pExpr : Nat → List Char → Option (RExp × List Char)
  | 0, _ => none
  | fuel + 1, input => do
      let (e, rest) ← pPrimary fuel input
      pPostfix fuel e rest

def pPrimary : Nat → List Char → Option (RExp × List Char)
  | 0, _ => none
  | fuel + 1, input =>
      match skipWs input with
      | [] => none
      | c :: rest =>
          if c = '(' then do
            let (e, r1) ← pExpr fuel (skipWsNl rest)
            match skipWsNl r1 with
            | ')' :: r2 => some (e, r2)
            | _ => none
          else if c = '~' then do
            let (r, r1) ← pExpr fuel (skipWs rest)
            some (.Formula (.OneSided r), r1)
          else if c = '!' || c = '-' || c = '+' then do
            let (e, r1) ← pExpr fuel (skipWs rest)
            some (.PrefixOp (String.mk [c]) e, r1)
          else if c = '"' || c = '\'' || c = '`' then do
            let (s, r1) ← scanQuoted (c :: rest)
            some (.Constant s, r1)
          else if c.isDigit || (c = '.' && (match rest with | d :: _ => d.isDigit | [] => false)) then do
            let (s, r1) ← scanNumber (c :: rest)
            some (.Constant s, r1)
          else if identStartChar c then do
            let (n, r1) ← scanIdent (c :: rest)
            if n = "function" then
              match skipWs r1 with
              | '(' :: r2 => do
                  let (ps, r3) ← pParams fuel (skipWsNl r2)
                  let r4 := skipWsNl r3
                  match r4 with
                  | b :: r5 =>
                      if b = leftBrace then do
                        let r6 := match skipWs r5 with
                          | '\n' :: r7 => r7
                          | other => other
                        let (body, r8) ← pStmts fuel r6
                        match skipWs r8 with
                        | b2 :: r9 =>
                            if b2 = rightBrace then
                              some (.FunctionDef ps (StmtList.ofList body), r9)
                            else none
                        | [] => none
                      else do
                        let (s, r6) ← pStmt fuel r4
                        some (.FunctionDef ps (StmtList.ofList [s]), r6)
                  | [] => none
              | _ => none
            else if n ∈ boolLiterals then
              some (.Constant n, r1)
            else
              some (.Variable n, r1)
          else none

/-- Postfix and infix continuations after a primary: calls, `$` access,
single and double bracket indexing, two-sided formulae and right-associative
infix operators. -/
def pPostfix : Nat → RExp → List Char → Option (RExp × List Char)
  | 0, _, _ => none
  | fuel + 1, e, input =>
      match skipWs input with
      | [] => some (e, input)
      | c :: rest =>
          if c = '(' then do
            let (args, r1) ← pArgs fuel (skipWsNl rest)
            pPostfix fuel (.Call e (ArgList.ofList args)) r1
          else if c = '$' then do
            let (atom, r1) ← scanColumnAtom (skipWs rest)
            pPostfix fuel (.Column e atom) r1
          else if c = '[' then
            match rest with
            | '[' :: r1 => do
                let (idx, r2) ← pSlots fuel (skipWsNl r1) true []
                pPostfix fuel (.ListIndex e idx) r2
            | _ => do
                let (idx, r2) ← pSlots fuel (skipWsNl rest) false []
                pPostfix fuel (.Index e idx) r2
          else if c = '~' then do
            let (r, r1) ← pExpr fuel (skipWs rest)
            some (.Formula (.TwoSided e r), r1)
          else
            match scanOp (c :: rest) with
            | some (op, r1) => do
                let (r, r2) ← pExpr fuel (skipWsNl r1)
                some (.InfixOp op e r, r2)
            | none => some (e, input)

/-- Call argument list, after the opening parenthesis. -/
def pArgs : Nat → List Char → Option (List (Option String × RExp) × List Char)
  | 0, _ => none
  | fuel + 1, input =>
      match input with
      | ')' :: rest => some ([], rest)
      | _ => pArgsLoop fuel input []

def pArgsLoop : Nat → List Char → List (Option String × RExp) →
    Option (List (Option String × RExp) × List Char)
  | 0, _, _ => none
  | fuel + 1, input, acc => do
      let (arg, r1) ←
        (match scanIdent input with
         | some (n, rn) =>
             (match skipWs rn with
              | '=' :: '=' :: _ => pPositional fuel input
              | '=' :: rv => do
                  let (v, r2) ← pExpr fuel (skipWsNl rv)
                  some ((some n, v), r2)
              | _ => pPositional fuel input)
         | none => pPositional fuel input)
      match skipWsNl r1 with
      | ',' :: r2 => pArgsLoop fuel (skipWsNl r2) (acc ++ [arg])
      | ')' :: r2 => some (acc ++ [arg], r2)
      | _ => none

def pPositional : Nat → List Char → Option ((Option String × RExp) × List Char)
  | 0, _ => none
  | fuel + 1, input => do
      let (v, r) ← pExpr fuel input
      some ((none, v), r)

/-- Index slots (`[...]` or `[[...]]`); a slot before `,`/`]` is empty. -/
def pSlots : Nat → List Char → Bool → List (Option RExp) →
    Option (IdxList × List Char)
  | 0, _, _, _ => none
  | fuel + 1, input, double, acc =>
      match input with
      | ']' :: rest =>
          if double then
            match rest with
            | ']' :: r2 => some (idxOfList (acc ++ [none]), r2)
            | _ => none
          else some (idxOfList (acc ++ [none]), rest)
      | ',' :: rest => pSlots fuel (skipWsNl rest) double (acc ++ [none])
      | _ => do
          let (v, r1) ← pExpr fuel input
          match skipWsNl r1 with
          | ',' :: r2 => pSlots fuel (skipWsNl r2) double (acc ++ [some v])
          | ']' :: r2 =>
              if double then
                match r2 with
                | ']' :: r3 => some (idxOfList (acc ++ [some v]), r3)
                | _ => none
              else some (idxOfList (acc ++ [some v]), r2)
          | _ => none

/-- Function parameters, after the opening parenthesis. -/
def pParams : Nat → List Char → Option (ParamList × List Char)
  | 0, _ => none
  | fuel + 1, input =>
      match input with
      | ')' :: rest => some (.nil, rest)
      | _ => pParamsLoop fuel input []

def pParamsLoop : Nat → List Char → List (String × Option RExp) →
    Option (ParamList × List Char)
  | 0, _, _ => none
  | fuel + 1, input, acc => do
      let (n, r1) ← scanIdent input
      let (p, r2) ←
        (match skipWs r1 with
         | '=' :: rv => do
             let (d, r3) ← pExpr fuel (skipWsNl rv)
             some ((n, some d), r3)
         | _ => some ((n, (none : Option RExp)), r1))
      match skipWsNl r2 with
      | ',' :: r3 => pParamsLoop fuel (skipWsNl r3) (acc ++ [p])
      | ')' :: r3 => some (paramsOfList (acc ++ [p]), r3)
      | _ => none

/-- One statement: a `library(...)` load, or an expression possibly
continued as a (multi-)assignment. -/
def pStmt : Nat → List Char → Option (RStmt × List Char)
  | 0, _ => none
  | fuel + 1, input =>
      match pLibrary (skipWs input) with
      | some r => some r
      | none => do
          let (e, r1) ← pExpr fuel (skipWs input)
          pAssignTail fuel [e] r1

/-- After the first expression of a statement: a chain of `<-`/`=`
assignments; with a single element the statement is a plain expression,
otherwise the elements are combined exactly as in `parse_line`. -/
def pAssignTail : Nat → List RExp → List Char → Option (RStmt × List Char)
  | 0, _, _ => none
  | fuel + 1, elements, input =>
      match skipWs input with
      | '<' :: '-' :: rest => do
          let (e, r1) ← pExpr fuel (skipWsNl rest)
          pAssignTail fuel (elements ++ [e]) r1
      | '=' :: '=' :: _ => none
      | '=' :: rest => do
          let (e, r1) ← pExpr fuel (skipWsNl rest)
          pAssignTail fuel (elements ++ [e]) r1
      | _ =>
          match elements with
          | [e] => some (.Expression e, input)
          | _ => do
              let s ← mkAssignment elements
              some (s, input)

/-- Statement sequence inside braces; stops before the closing brace.  A
blank line becomes an `Empty` statement. -/
def pStmts : Nat → List Char → Option (List RStmt × List Char)
  | 0, _ => none
  | fuel + 1, input =>
      match skipWs input with
      | [] => none
      | c :: rest =>
          if c = rightBrace then some ([], c :: rest)
          else if c = '\n' then do
            let (ss, r1) ← pStmts fuel rest
            some (RStmt.Empty :: ss, r1)
          else do
            let (s, r1) ← pStmt fuel (c :: rest)
            match skipWs r1 with
            | '\n' :: r2 => do
                let r3 := skipWs r2
                match r3 with
                | b :: _ =>
                    if b = rightBrace then some ([s], r3)
                    else do
                      let (ss, r4) ← pStmts fuel r2
                      some (s :: ss, r4)
                | [] => none
            | b :: r2 =>
                if b = rightBrace then some ([s], b :: r2)
                else none
            | [] => none

end


/-- The statement lines of a file. -/
def pFile : Nat → List Char → Option (List RStmt)
  | 0, _ => none
  | fuel + 1, input =>
      match skipWs input with
      | [] => some []
      | '\n' :: rest => do
          let ss ← pFile fuel rest
          some (RStmt.Empty :: ss)
      | r => do
          let (s, r1) ← pStmt fuel r
          match skipWs r1 with
          | [] => some [s]
          | '\n' :: r2 => do
              let ss ← pFile fuel r2
              some (s :: ss)
          | _ => none

/-- Modelled from the spec: `parse` — the grammar `r.pest` and the pest
engine are not part of the sources, so the accepted language is modelled
from §4.1 (the fragment exercised by the claims: expressions with calls,
column access, indexing, formulae, function definitions, prefix and infix
operators, strings, numbers, identifiers; `<-`/`=`/multi-assignments;
`library` loads; statements separated by newlines, with continuation inside
brackets and after a binary operator).  The AST construction mirrors
`parse_line`/`parse_expression` of `parser.rs`; `none` models `ParseError`
as well as the panics of `parse_line`. -/
def parseR (code : String) : Option (List RStmt) :=
  pFile (code.length * 4 + 16) code.toList


/-! ## Claim C6 -/

/-- C6: a chained multi-assignment parses left-to-right: the leftmost parsed
expression becomes `lhs`, the rightmost becomes `rhs`, and the middle
expressions become `additional_lhs` in order; concretely `a=b=c=1` parses to
`Assignment(Variable "a", [Variable "b", Variable "c"], Constant "1")`. -/
theorem claim_C6 :
    (∀ (l : RExp) (ms : List RExp) (r : RExp),
      mkAssignment (l :: ms ++ [r]) = some (.Assignment l (ExpList.ofList ms) r)) ∧
    parseR "a=b=c=1" =
      some [.Assignment (.Variable "a")
        (.cons (.Variable "b") (.cons (.Variable "c") .nil)) (.Constant "1")] := by
  constructor
  · intro l ms r
    unfold mkAssignment
    rw [List.getLast?_concat]
    have hdl : (l :: ms ++ [r]).dropLast = l :: ms := List.dropLast_concat
    simp only [hdl]
  · decide

/-! ## The test corpus and claim C5 -/

/-- Shorthand for corpus entries. -/
def vr (s : String) : RExp := .Variable s

def ct (s : String) : RExp := .Constant s

def arg1 (e : RExp) : ArgList := .cons none e .nil

/-- The expressions appearing in the expected ASTs of the `parser.rs`
tests. -/
def testCorpus : List RExp :=
  [ .Call (vr "hello") .nil,
    vr "a", ct "1", vr "b", ct "2", vr "c",
    .Call (vr "colnames") (arg1 (vr "something")),
    .Call (vr "c") (.cons none (ct "\"R\"") (.cons none (ct "\"is\"") (.cons none (ct "\"crazy\"") .nil))),
    .Call (vr "empty") .nil,
    .Call (vr "single") (arg1 (ct "1")),
    .Call (vr "with_args") (.cons none (ct "1") (.cons none (vr "x") (.cons (some "name") (vr "value") .nil))),
    .Call (vr "break_down") (.cons none (ct "\"long\"") (.cons (some "argument") (ct "\"chains\"") .nil)),
    .Call (vr "name::space") .nil,
    .Call (.Call (vr "higher_order") .nil) (arg1 (ct "10")),
    ct "'first'", ct "\"second\"", ct "`third`",
    ct ".20", ct "0.10", .PrefixOp "-" (ct "2"), ct "2e-30", .PrefixOp "+" (ct "3.4e+1"),
    .Column (vr "item") (vr "column"),
    .Index (vr "item") (.consSome (.Column (vr "other") (vr "thing")) .nil),
    .ListIndex (vr "item") (.consSome (ct "1") .nil),
    .Index (vr "other") (.consSome (vr "multiple") (.consSome (vr "index") (.consSome (vr "arguments") .nil))),
    .ListIndex (vr "list") (.consSome (ct "1") (.consSome (ct "2") .nil)),
    .Index (.Column (.Call (vr "get_matrix") .nil) (vr "column")) (.consSome (ct "1") .nil),
    .Index (vr "item") (.consSome (vr "empty") (.consNone .nil)),
    .Formula (.OneSided (vr "one_sided")),
    .Formula (.TwoSided (vr "two") (vr "sided")),
    .Formula (.OneSided (.InfixOp "+" (vr "one") (.InfixOp "+" (vr "sided") (vr "multiple")))),
    .Formula (.TwoSided (vr "two") (.InfixOp "+" (vr "sided") (ct "1"))),
    .Formula (.OneSided (.Call (vr "transform") (arg1 (vr "x")))),
    .Formula (.TwoSided (vr "other") (.Call (vr "transform") (arg1 (vr "x")))),
    .Call (vr "lm") (arg1 (.Formula (.TwoSided
      (.Index (vr "y") (.consSome (vr "subk") .nil))
      (.Call (vr "factor") (arg1 (.Index (vr "x") (.consSome (vr "subk") .nil))))))),
    .FunctionDef .nil (.cons (.Expression (ct "1")) .nil),
    .FunctionDef (.consReq "with" (.consReq "arguments" .nil)) (.cons (.Expression (ct "2")) .nil),
    .FunctionDef (.consReq "with" (.consDef "default" (ct "'arguments'") .nil))
      (.cons (.Assignment (vr "a") .nil (.Call (vr "other") .nil))
        (.cons (.Expression (vr "a")) .nil)),
    .PrefixOp "!" (ct "TRUE"),
    .Call (vr "negate") (arg1 (.PrefixOp "!" (vr "x"))),
    .PrefixOp "-" (.InfixOp "+" (ct "1") (ct "2")),
    .InfixOp "<=" (ct "1") (ct "3"),
    .InfixOp "&&" (ct "TRUE") (ct "FALSE"),
    .InfixOp "%custom%" (ct "'a'") (ct "'infix'"),
    .InfixOp "+" (ct "1") (ct "3"),
    .InfixOp "+" (ct "1") (.InfixOp "+" (ct "2") (ct "3")),
    .InfixOp "+" (.InfixOp "+" (ct "1") (ct "2")) (ct "3"),
    .InfixOp "==" (ct "0") (ct "1"),
    .Call (vr "is_ok") .nil,
    .InfixOp ":" (ct "1") (ct "15"),
    .InfixOp "<" (vr "i") (ct "10") ]

/-- The one corpus expression created by explicit parentheses around a
left-nested infix chain (`((1 + 2) + 3)`): its pretty-printed form drops the
parentheses, and reparsing is right-associative. -/
def leftNestedSum : RExp := .InfixOp "+" (.InfixOp "+" (ct "1") (ct "2")) (ct "3")

/-- Counterexample to C5: the corpus expression `((1 + 2) + 3)`
pretty-prints to `"1 + 2 + 3"`, which reparses to the right-associated
expression, not to the original. -/
theorem claim_C5_counterexample :
    leftNestedSum ∈ testCorpus ∧
    prettyExp leftNestedSum = "1 + 2 + 3" ∧
    parseR (prettyExp leftNestedSum) =
      some [RStmt.Expression (.InfixOp "+" (ct "1") (.InfixOp "+" (ct "2") (ct "3")))] ∧
    parseR (prettyExp leftNestedSum) ≠ some [RStmt.Expression leftNestedSum] :=
  ⟨by decide, by decide, by decide, by decide⟩

/-- C5 (amended): for every expression of the test corpus except the
parenthesised left-nested sum `((1 + 2) + 3)`, parsing the pretty-printed
form succeeds and yields a statement list whose single expression is
structurally equal to the original. -/
theorem claim_C5 :
    ∀ e ∈ testCorpus, e ≠ leftNestedSum →
      parseR (prettyExp e) = some [RStmt.Expression e] := by
  decide

/-- Witness for C5 at one corpus expression. -/
theorem claim_C5_witness :
    (RExp.Call (vr "single") (arg1 (ct "1"))) ∈ testCorpus ∧
    (RExp.Call (vr "single") (arg1 (ct "1"))) ≠ leftNestedSum ∧
    parseR (prettyExp (.Call (vr "single") (arg1 (ct "1")))) =
      some [RStmt.Expression (.Call (vr "single") (arg1 (ct "1")))] :=
  ⟨by decide, by decide,
   claim_C5 (.Call (vr "single") (arg1 (ct "1"))) (by decide) (by decide)⟩


/-! ## Claims C1–C4: the spanning tree built by `parse_hypothesis_tree` -/


/-! Utility lemmas about the association lists and sorted string sets. -/

theorem alookup_cons {α : Type} [DecidableEq α] {β : Type} (k k' : α) (v : β) (l : List (α × β)) :
    alookup k ((k', v) :: l) = if k' = k then some v else alookup k l := rfl

theorem alookup_mem {α : Type} [DecidableEq α] {β : Type} :
    ∀ {l : List (α × β)} {k : α} {v : β}, alookup k l = some v → (k, v) ∈ l
  | [], k, v, h => by cases h
  | (k', v') :: rest, k, v, h => by
      rw [alookup_cons] at h
      by_cases hk : k' = k
      · rw [if_pos hk] at h
        cases h
        subst hk
        exact List.mem_cons_self _ _
      · rw [if_neg hk] at h
        exact List.mem_cons_of_mem _ (alookup_mem h)

theorem mem_hypInsert {x y : String} : ∀ {l : List String}, x ∈ hypInsert y l ↔ x = y ∨ x ∈ l
  | [] => by simp [hypInsert]
  | z :: rest => by
      unfold hypInsert
      rcases h : cmpStr y z with _ | _ | _
      · simp [List.mem_cons]
      · rw [cmpStr_eq_iff] at h
        subst h
        simp only [List.mem_cons]
        tauto
      · simp only [List.mem_cons, mem_hypInsert]
        tauto

theorem mem_hypUnionL {x : String} : ∀ {xs base : List String},
    x ∈ hypUnionL base xs ↔ x ∈ base ∨ x ∈ xs
  | [], base => by simp [hypUnionL]
  | y :: rest, base => by
      unfold hypUnionL
      have hstep : (y :: rest).foldl (fun acc h => hypInsert h acc) base
          = rest.foldl (fun acc h => hypInsert h acc) (hypInsert y base) := rfl
      rw [hstep]
      have h2 := @mem_hypUnionL x rest (hypInsert y base)
      unfold hypUnionL at h2
      rw [h2, mem_hypInsert]
      simp only [List.mem_cons]
      tauto

/-- `mapMO` succeeds with the pointwise values. -/
theorem mapMO_eq_some {α β : Type} (f : α → Option β) (gfun : α → β) :
    ∀ (l : List α), (∀ a ∈ l, f a = some (gfun a)) → mapMO f l = some (l.map gfun)
  | [], _ => rfl
  | a :: rest, h => by
      have ha := h a (List.mem_cons_self _ _)
      have hrest := mapMO_eq_some f gfun rest (fun b hb => h b (List.mem_cons_of_mem _ hb))
      unfold mapMO
      rw [ha, hrest]
      rfl

theorem count_eq_sum_map {α : Type} [DecidableEq α] (e : α) :
    ∀ l : List α, l.count e = (l.map (fun a => if a = e then 1 else 0)).sum
  | [] => rfl
  | a :: rest => by
      rw [List.count_cons, count_eq_sum_map e rest]
      simp only [List.map_cons, List.sum_cons]
      by_cases h : a = e
      · simp [h]; omega
      · simp [h]

theorem getElem?_append_left' {α : Type} {l l' : List α} {n : Nat} (h : n < l.length) :
    (l ++ l')[n]? = l[n]? := by
  rw [List.getElem?_append]
  rw [if_pos h]

theorem getElem?_some_lt {α : Type} {l : List α} {n : Nat} {x : α}
    (h : l[n]? = some x) : n < l.length := by
  by_contra hc
  rw [List.getElem?_eq_none (Nat.le_of_not_lt hc)] at h
  cases h

/-- The most recent (largest) position of a value in a list. -/
def lastIdxOf {α : Type} [DecidableEq α] (e : α) : List α → Option Nat
  | [] => none
  | a :: rest =>
      match lastIdxOf e rest with
      | some n => some (n + 1)
      | none => if a = e then some 0 else none

theorem lastIdxOf_append_singleton {α : Type} [DecidableEq α] (e' e : α) :
    ∀ l : List α, lastIdxOf e' (l ++ [e]) =
      if e = e' then some l.length else lastIdxOf e' l
  | [] => by
      unfold lastIdxOf
      by_cases h : e = e' <;> simp [h, lastIdxOf]
  | a :: l => by
      have ih := lastIdxOf_append_singleton e' e l
      show lastIdxOf e' (a :: (l ++ [e])) = _
      unfold lastIdxOf
      rw [ih]
      by_cases h : e = e'
      · simp [h]
      · rw [if_neg h, if_neg h]

theorem lastIdxOf_getElem {α : Type} [DecidableEq α] {e : α} :
    ∀ {l : List α} {n : Nat}, lastIdxOf e l = some n → l[n]? = some e
  | [], n, h => by cases h
  | a :: rest, n, h => by
      unfold lastIdxOf at h
      rcases hr : lastIdxOf e rest with _ | m
      · rw [hr] at h
        simp only at h
        by_cases ha : a = e
        · rw [if_pos ha] at h
          cases h
          simpa using ha
        · rw [if_neg ha] at h
          cases h
      · rw [hr] at h
        simp only [Option.some.injEq] at h
        subst h
        simpa using lastIdxOf_getElem hr

theorem mem_of_getElem?' {α : Type} :
    ∀ {l : List α} {n : Nat} {x : α}, l[n]? = some x → x ∈ l
  | [], _, _, h => by cases h
  | a :: rest, 0, x, h => by
      simp only [List.getElem?_cons_zero, Option.some.injEq] at h
      subst h
      exact List.mem_cons_self _ _
  | a :: rest, n + 1, x, h => by
      rw [List.getElem?_cons_succ] at h
      exact List.mem_cons_of_mem _ (mem_of_getElem?' h)

theorem lastIdxOf_of_nodup {α : Type} [DecidableEq α] {e : α} :
    ∀ {l : List α} {k : Nat}, l.Nodup → l[k]? = some e → lastIdxOf e l = some k
  | [], k, _, h => by cases h
  | a :: rest, k, hnd, h => by
      obtain ⟨hna, hndr⟩ := List.nodup_cons.mp hnd
      unfold lastIdxOf
      rcases k with _ | k
      · simp only [List.getElem?_cons_zero, Option.some.injEq] at h
        subst h
        rcases hr : lastIdxOf a rest with _ | m
        · rw [if_pos rfl]
        · exfalso
          exact hna (mem_of_getElem?' (lastIdxOf_getElem hr))
      · rw [List.getElem?_cons_succ] at h
        rw [lastIdxOf_of_nodup hndr h]

/-! Graph invariants. -/

/-- The invariant of the spec-modelled dependency-graph construction. -/
structure GraphInv (st : DependencyGraph) : Prop where
  edges_lt : ∀ p ∈ st.edges, p.1 < p.2 ∧ p.2 < st.nodes.length
  index_eq : ∀ e, alookup e st.index = lastIdxOf e st.nodes
  env_lt : ∀ q ∈ st.env, q.2 < st.nodes.length

theorem graphInv_init : GraphInv { nodes := [], edges := [], index := [], env := [] } :=
  ⟨(fun p hp => by cases hp), (fun e => rfl), (fun q hq => by cases hq)⟩

theorem graphStep_inv {st st' : DependencyGraph} {stmt : RStmt}
    (h : graphStep st stmt = .ok st') (inv : GraphInv st) :
    GraphInv st' ∧
      ((stmt.expression = none ∧ st' = st) ∨
       (∃ e, stmt.expression = some e ∧ st'.nodes = st.nodes ++ [e])) := by
  unfold graphStep at h
  rcases hse : stmt.expression with _ | e
  · rw [hse] at h
    simp at h
    subst h
    exact ⟨inv, Or.inl ⟨rfl, rfl⟩⟩
  · rw [hse] at h
    simp only [bind, Except.bind] at h
    rcases hw : writesOf stmt with u | w
    · rw [hw] at h; cases h
    · rw [hw] at h
      simp only [Except.ok.injEq] at h
      subst h
      constructor
      · constructor
        · intro p hp
          simp only [List.mem_append] at hp
          rcases hp with hp | hp
          · have := inv.edges_lt p hp
            simp only [List.length_append, List.length_cons, List.length_nil]
            omega
          · simp only [List.mem_filterMap] at hp
            obtain ⟨v, hv, hmap⟩ := hp
            rcases ha : alookup v st.env with _ | w'
            · rw [ha] at hmap; cases hmap
            · rw [ha] at hmap
              simp only [Option.map_some'] at hmap
              cases hmap
              have := inv.env_lt _ (alookup_mem ha)
              simp only [List.length_append, List.length_cons, List.length_nil]
              omega
        · intro e'
          rw [alookup_cons, lastIdxOf_append_singleton, inv.index_eq e']
        · intro q hq
          rcases w with _ | name
          · have := inv.env_lt q hq
            simp only [List.length_append, List.length_cons, List.length_nil]
            omega
          · simp only [List.mem_cons] at hq
            rcases hq with rfl | hq
            · simp only [List.length_append, List.length_cons, List.length_nil]
              omega
            · have := inv.env_lt q hq
              simp only [List.length_append, List.length_cons, List.length_nil]
              omega
      · exact Or.inr ⟨e, rfl, rfl⟩

theorem buildGraphFrom_inv : ∀ (rest : List RStmt) (st g : DependencyGraph),
    buildGraphFrom st rest = .ok g → GraphInv st →
    GraphInv g ∧ g.nodes = st.nodes ++ rest.filterMap RStmt.expression
  | [], st, g, h, inv => by
      unfold buildGraphFrom at h
      simp only [Except.ok.injEq] at h
      subst h
      exact ⟨inv, by simp⟩
  | stmt :: rest, st, g, h, inv => by
      unfold buildGraphFrom at h
      simp only [bind, Except.bind] at h
      rcases hs : graphStep st stmt with u | st'
      · rw [hs] at h; cases h
      · rw [hs] at h
        obtain ⟨inv', hcase⟩ := graphStep_inv hs inv
        obtain ⟨invg, hnodes⟩ := buildGraphFrom_inv rest st' g h inv'
        rcases hcase with ⟨hnone, rfl⟩ | ⟨e, hsome, hn⟩
        · refine ⟨invg, ?_⟩
          rw [hnodes, List.filterMap_cons, hnone]
        · refine ⟨invg, ?_⟩
          rw [hnodes, hn, List.filterMap_cons, hsome]
          simp

/-- The facts the tree proofs need about a successfully built graph. -/
theorem build_graph_inv {stmts : List RStmt} {g : DependencyGraph}
    (h : build_graph stmts = .ok g) :
    g.nodes = stmts.filterMap RStmt.expression ∧
    (∀ p ∈ g.edges, p.1 < p.2 ∧ p.2 < g.nodes.length) ∧
    (∀ e, g.id e = lastIdxOf e g.nodes) := by
  obtain ⟨inv, hnodes⟩ := buildGraphFrom_inv stmts _ g h graphInv_init
  simp only [List.nil_append] at hnodes
  exact ⟨hnodes, inv.edges_lt, inv.index_eq⟩

theorem mem_incoming {g : DependencyGraph} {p n : Nat} :
    p ∈ g.incoming n ↔ (p, n) ∈ g.edges := by
  unfold DependencyGraph.incoming
  rw [List.mem_filterMap]
  constructor
  · rintro ⟨⟨u, v⟩, hm, hf⟩
    by_cases hv : v = n
    · rw [if_pos hv] at hf
      cases hf
      subst hv
      exact hm
    · rw [if_neg hv] at hf
      cases hf
  · intro hm
    exact ⟨(p, n), hm, by rw [if_pos rfl]⟩

theorem incoming_lt {g : DependencyGraph}
    (hE : ∀ p ∈ g.edges, p.1 < p.2 ∧ p.2 < g.nodes.length) {p n : Nat}
    (h : p ∈ g.incoming n) : p < n ∧ n < g.nodes.length :=
  hE _ (mem_incoming.mp h)


/-! Tree-building step shape. -/

theorem treeStep_shape {g : DependencyGraph} {st st' : BuildState} {e : RExp}
    (h : treeStep g st e = some st') :
    ∃ hm em hypId n,
      collect_hypotheses g e st.hypothesesMap st.expressionMap = some (hm, em) ∧
      alookup e em = some hypId ∧ g.id e = some n ∧
      st'.expressionMap = em ∧ st'.hypothesesMap = hm ∧
      st'.nodeMap = (n, st.nodes.length) :: st.nodeMap ∧
      (((g.incoming n).max? = none ∧
         st'.root = st.root ++ [(hypId, st.nodes.length)] ∧
         st'.nodes = st.nodes ++ [⟨n, []⟩]) ∨
       (∃ m ps pnode, (g.incoming n).max? = some m ∧
         alookup m st.nodeMap = some ps ∧
         st.nodes[ps]? = some pnode ∧
         st'.root = st.root ∧
         st'.nodes = st.nodes.set ps
           { pnode with children := pnode.children ++ [(hypId, st.nodes.length)] } ++ [⟨n, []⟩])) := by
  unfold treeStep at h
  simp only [bind, Option.bind_eq_some] at h
  obtain ⟨⟨hm, em⟩, hc, h⟩ := h
  obtain ⟨hypId, hl, h⟩ := h
  obtain ⟨n, hid, h⟩ := h
  refine ⟨hm, em, hypId, n, hc, hl, hid, ?_⟩
  rcases hmax : (g.incoming n).max? with _ | m
  · rw [hmax] at h
    simp only [Option.some.injEq] at h
    subst h
    exact ⟨rfl, rfl, rfl, Or.inl ⟨rfl, rfl, rfl⟩⟩
  · rw [hmax] at h
    simp only [Option.bind_eq_some] at h
    obtain ⟨ps, hps, h⟩ := h
    obtain ⟨pnode, hpn, h⟩ := h
    simp only [Option.some.injEq] at h
    subst h
    exact ⟨rfl, rfl, rfl, Or.inr ⟨m, ps, pnode, rfl, hps, hpn, rfl, rfl⟩⟩


/-! Claim C1 machinery: node-map coherence and placement. -/

def NodeMapOK (st : BuildState) : Prop :=
  ∀ n s, alookup n st.nodeMap = some s →
    ∃ rn, st.nodes[s]? = some rn ∧ rn.graphId = n

theorem getElem?_set_ne {α : Type} {l : List α} {i j : Nat} {a : α} (h : i ≠ j) :
    (l.set i a)[j]? = l[j]? := by
  rw [List.getElem?_set]
  simp [h]

theorem getElem?_set_self {α : Type} {l : List α} {i : Nat} {a : α} (h : i < l.length) :
    (l.set i a)[i]? = some a := by
  rw [List.getElem?_set]
  simp [h]

/-- After one step: the old nodes keep their graph id and only grow their
children, the root only grows, the node map stays coherent, and the new
serial is placed according to the maximal incoming neighbour. -/
theorem treeStep_mono {g : DependencyGraph} {st st' : BuildState} {e : RExp}
    (h : treeStep g st e = some st') (hnm : NodeMapOK st) :
    st'.nodes.length = st.nodes.length + 1 ∧
    (∀ (s : Nat) (rn : RefNodeM), st.nodes[s]? = some rn → ∃ rn', st'.nodes[s]? = some rn' ∧
      rn'.graphId = rn.graphId ∧ (∀ x ∈ rn.children, x ∈ rn'.children)) ∧
    (∀ x ∈ st.root, x ∈ st'.root) ∧
    NodeMapOK st' ∧
    (∃ n, g.id e = some n ∧
      (∃ rn, st'.nodes[st.nodes.length]? = some rn ∧ rn.graphId = n) ∧
      ((g.incoming n = [] ∧ ∃ hy, (hy, st.nodes.length) ∈ st'.root) ∨
       (∃ m, (g.incoming n).max? = some m ∧
         ∃ (ps : Nat) (rn' : RefNodeM), st'.nodes[ps]? = some rn' ∧ rn'.graphId = m ∧
           ∃ hy, (hy, st.nodes.length) ∈ rn'.children))) := by
  obtain ⟨hm, em, hypId, n, hc, hl, hid, hem, hhm, hnmap, hbranch⟩ := treeStep_shape h
  rcases hbranch with ⟨hmax, hroot, hnodes⟩ | ⟨m, ps, pnode, hmax, hps, hpn, hroot, hnodes⟩
  · have hlen : st'.nodes.length = st.nodes.length + 1 := by
      rw [hnodes]; simp
    have hmono : ∀ (s : Nat) (rn : RefNodeM), st.nodes[s]? = some rn → ∃ rn', st'.nodes[s]? = some rn' ∧
        rn'.graphId = rn.graphId ∧ (∀ x ∈ rn.children, x ∈ rn'.children) := by
      intro s rn hs
      refine ⟨rn, ?_, rfl, fun x hx => hx⟩
      rw [hnodes, getElem?_append_left' (getElem?_some_lt hs)]
      exact hs
    have hnew : st'.nodes[st.nodes.length]? = some ⟨n, []⟩ := by
      rw [hnodes]
      rw [List.getElem?_append_right (Nat.le_refl _)]
      simp
    refine ⟨hlen, hmono, ?_, ?_, n, hid, ⟨⟨n, []⟩, hnew, rfl⟩, Or.inl ⟨?_, hypId, ?_⟩⟩
    · intro x hx
      rw [hroot]
      exact List.mem_append_left _ hx
    · intro n' s hs
      rw [hnmap, alookup_cons] at hs
      by_cases hn : n = n'
      · rw [if_pos hn] at hs
        cases hs
        subst hn
        exact ⟨⟨n, []⟩, hnew, rfl⟩
      · rw [if_neg hn] at hs
        obtain ⟨rn, hrn, hgid⟩ := hnm n' s hs
        obtain ⟨rn', hrn', hgid', _⟩ := hmono s rn hrn
        exact ⟨rn', hrn', hgid'.trans hgid⟩
    · rwa [List.max?_eq_none_iff] at hmax
    · rw [hroot]
      exact List.mem_append_right _ (List.mem_singleton.mpr rfl)
  · obtain ⟨prn, hprn, hpgid⟩ := hnm m ps hps
    have hpe : prn = pnode := by
      rw [hprn] at hpn
      cases hpn
      rfl
    subst hpe
    have hpslt : ps < st.nodes.length := getElem?_some_lt hprn
    have hlen : st'.nodes.length = st.nodes.length + 1 := by
      rw [hnodes]; simp
    have hsetlen : (st.nodes.set ps
        { prn with children := prn.children ++ [(hypId, st.nodes.length)] }).length
        = st.nodes.length := by simp
    have hnew : st'.nodes[st.nodes.length]? = some ⟨n, []⟩ := by
      rw [hnodes]
      rw [List.getElem?_append_right (by rw [hsetlen])]
      rw [hsetlen]
      simp
    have hmono : ∀ (s : Nat) (rn : RefNodeM), st.nodes[s]? = some rn → ∃ rn', st'.nodes[s]? = some rn' ∧
        rn'.graphId = rn.graphId ∧ (∀ x ∈ rn.children, x ∈ rn'.children) := by
      intro s rn hs
      have hslt : s < st.nodes.length := getElem?_some_lt hs
      by_cases hsps : ps = s
      · subst hsps
        have : rn = prn := by
          rw [hs] at hprn
          cases hprn
          rfl
        subst this
        refine ⟨{ rn with children := rn.children ++ [(hypId, st.nodes.length)] }, ?_, rfl, ?_⟩
        · rw [hnodes, getElem?_append_left' (by rw [hsetlen]; exact hslt)]
          exact getElem?_set_self hslt
        · intro x hx
          exact List.mem_append_left _ hx
      · refine ⟨rn, ?_, rfl, fun x hx => hx⟩
        rw [hnodes, getElem?_append_left' (by rw [hsetlen]; exact hslt)]
        rw [getElem?_set_ne hsps]
        exact hs
    have hpsnew : st'.nodes[ps]? = some { prn with children := prn.children ++ [(hypId, st.nodes.length)] } := by
      rw [hnodes, getElem?_append_left' (by rw [hsetlen]; exact hpslt)]
      exact getElem?_set_self hpslt
    refine ⟨hlen, hmono, ?_, ?_, n, hid, ⟨⟨n, []⟩, hnew, rfl⟩, Or.inr ⟨m, hmax, ps, _, hpsnew, hpgid, hypId, ?_⟩⟩
    · intro x hx
      rw [hroot]
      exact hx
    · intro n' s hs
      rw [hnmap, alookup_cons] at hs
      by_cases hn : n = n'
      · rw [if_pos hn] at hs
        cases hs
        subst hn
        exact ⟨⟨n, []⟩, hnew, rfl⟩
      · rw [if_neg hn] at hs
        obtain ⟨rn, hrn, hgid⟩ := hnm n' s hs
        obtain ⟨rn', hrn', hgid', _⟩ := hmono s rn hrn
        exact ⟨rn', hrn', hgid'.trans hgid⟩
    · exact List.mem_append_right _ (List.mem_singleton.mpr rfl)


/-- Accumulated over a whole `runBuild`: final coherence, total length, node
and root monotonicity, and for every position `i` of the processed list the
placement of the expression at serial `st.nodes.length + i`. -/
theorem runBuild_placed (g : DependencyGraph) :
    ∀ (es : List RExp) (st stf : BuildState),
    runBuild g es st = some stf → NodeMapOK st →
    NodeMapOK stf ∧
    stf.nodes.length = st.nodes.length + es.length ∧
    (∀ (s : Nat) (rn : RefNodeM), st.nodes[s]? = some rn →
      ∃ rn', stf.nodes[s]? = some rn' ∧ rn'.graphId = rn.graphId ∧
        (∀ x ∈ rn.children, x ∈ rn'.children)) ∧
    (∀ x ∈ st.root, x ∈ stf.root) ∧
    (∀ (i : Nat) (e : RExp), es[i]? = some e → ∃ n, g.id e = some n ∧
      (∃ rn, stf.nodes[st.nodes.length + i]? = some rn ∧ rn.graphId = n) ∧
      ((g.incoming n = [] ∧ ∃ hy, (hy, st.nodes.length + i) ∈ stf.root) ∨
       (∃ m, (g.incoming n).max? = some m ∧
         ∃ (ps : Nat) (rn' : RefNodeM), stf.nodes[ps]? = some rn' ∧ rn'.graphId = m ∧
           ∃ hy, (hy, st.nodes.length + i) ∈ rn'.children))) := by
  intro es
  induction es with
  | nil =>
    intro st stf hrun hnm
    rw [runBuild] at hrun
    cases hrun
    refine ⟨hnm, by simp, fun s rn hs => ⟨rn, hs, rfl, fun x hx => hx⟩,
      fun x hx => hx, ?_⟩
    intro i e hi
    simp at hi
  | cons e rest ih =>
    intro st stf hrun hnm
    rw [runBuild] at hrun
    cases hstep : treeStep g st e with
    | none => rw [hstep] at hrun; cases hrun
    | some st' =>
      rw [hstep] at hrun
      obtain ⟨hlen1, hmono1, hroot1, hnm', hplace⟩ := treeStep_mono hstep hnm
      obtain ⟨hnmf, hlenf, hmonof, hrootf, hplacef⟩ := ih st' stf hrun hnm'
      refine ⟨hnmf, by rw [hlenf, hlen1]; simp [List.length_cons]; omega, ?_, ?_, ?_⟩
      · intro s rn hs
        obtain ⟨rn1, hrn1, hg1, hc1⟩ := hmono1 s rn hs
        obtain ⟨rn2, hrn2, hg2, hc2⟩ := hmonof s rn1 hrn1
        exact ⟨rn2, hrn2, hg2.trans hg1, fun x hx => hc2 x (hc1 x hx)⟩
      · intro x hx
        exact hrootf x (hroot1 x hx)
      · intro i e' hi
        cases i with
        | zero =>
          simp only [List.getElem?_cons_zero, Option.some.injEq] at hi
          subst hi
          obtain ⟨n, hid, ⟨rn, hrn, hgid⟩, hbr⟩ := hplace
          obtain ⟨rn2, hrn2, hg2, _⟩ := hmonof _ rn hrn
          refine ⟨n, hid, ⟨rn2, by simpa using hrn2, hg2.trans hgid⟩, ?_⟩
          rcases hbr with ⟨hinc, hy, hmem⟩ | ⟨m, hmax, ps, rn', hps, hg', hy, hmem⟩
          · exact Or.inl ⟨hinc, hy, by simpa using hrootf _ hmem⟩
          · obtain ⟨rn2', hps2, hg2', hc2'⟩ := hmonof ps rn' hps
            exact Or.inr ⟨m, hmax, ps, rn2', hps2, hg2'.trans hg', hy,
              by simpa using hc2' _ hmem⟩
        | succ j =>
          simp only [List.getElem?_cons_succ] at hi
          obtain ⟨n, hid, ⟨rn, hrn, hgid⟩, hbr⟩ := hplacef j e' hi
          have hidx : st'.nodes.length + j = st.nodes.length + (j + 1) := by omega
          rw [hidx] at hrn hbr
          exact ⟨n, hid, ⟨rn, hrn, hgid⟩, hbr⟩


/-! Maximum of a `Nat` list. -/

theorem foldlMax_acc_le : ∀ (l : List Nat) (a : Nat), a ≤ l.foldl max a
  | [], a => Nat.le_refl a
  | b :: rest, a =>
      Nat.le_trans (Nat.le_max_left a b) (foldlMax_acc_le rest (max a b))

theorem foldlMax_mem_le : ∀ (l : List Nat) (a x : Nat), x ∈ l → x ≤ l.foldl max a
  | [], _, _, h => by cases h
  | b :: rest, a, x, h => by
      rcases List.mem_cons.mp h with rfl | h
      · exact Nat.le_trans (Nat.le_max_right a x) (foldlMax_acc_le rest (max a x))
      · exact foldlMax_mem_le rest (max a b) x h

theorem le_of_mem_max {l : List Nat} {m x : Nat} (h : l.max? = some m)
    (hx : x ∈ l) : x ≤ m := by
  cases l with
  | nil => cases hx
  | cons a rest =>
      have h' : rest.foldl max a = m := by
        simpa [List.max?] using h
      rcases List.mem_cons.mp hx with rfl | hx
      · rw [← h']
        exact foldlMax_acc_le rest x
      · rw [← h']
        exact foldlMax_mem_le rest a x hx

theorem getElem?_of_lt {α : Type} {l : List α} {i : Nat} (h : i < l.length) :
    ∃ a, l[i]? = some a := by
  rcases hpe : l[i]? with _ | a
  · rw [List.getElem?_eq_none_iff] at hpe
    omega
  · exact ⟨a, rfl⟩

/-- C1: with the dependency graph built from the statement list, the
`i`-th processed expression `e` owns tree node serial `i` (labelled with
its graph node `n`, whose graph content is `e`); if `e` has no incoming
edges its hypotheses entry lands in the root list, and otherwise the
entry is appended to the children of the node of the largest incoming
neighbour `m`, whose graph content is the parent expression. -/
theorem claim_C1 (input : List RStmt) (g : DependencyGraph) (stf : BuildState)
    (hg : build_graph input = .ok g)
    (hrun : runBuild g (input.filterMap RStmt.expression) initialBuildState = some stf)
    (i : Nat) (e : RExp) (hi : (input.filterMap RStmt.expression)[i]? = some e) :
    ∃ n, g.id e = some n ∧ g.nodes[n]? = some e ∧
      (∃ rn, stf.nodes[i]? = some rn ∧ rn.graphId = n) ∧
      ((g.incoming n = [] ∧ ∃ hy, (hy, i) ∈ stf.root) ∨
       (g.incoming n ≠ [] ∧ ∃ m, (g.incoming n).max? = some m ∧
         (∀ p ∈ g.incoming n, p ≤ m) ∧
         ∃ pe, g.nodes[m]? = some pe ∧
           ∃ (ps : Nat) (rn' : RefNodeM), stf.nodes[ps]? = some rn' ∧
             rn'.graphId = m ∧ ∃ hy, (hy, i) ∈ rn'.children)) := by
  obtain ⟨hnodes, hE, hidx⟩ := build_graph_inv hg
  have hnm0 : NodeMapOK initialBuildState := by
    intro n s hs
    cases hs
  obtain ⟨_, _, _, _, hplace⟩ := runBuild_placed g _ initialBuildState stf hrun hnm0
  obtain ⟨n, hid, ⟨rn, hrn, hgid⟩, hbr⟩ := hplace i e hi
  have h0 : initialBuildState.nodes.length + i = i := by
    simp [initialBuildState]
  rw [h0] at hrn hbr
  have hne : g.nodes[n]? = some e := by
    have hidL : lastIdxOf e g.nodes = some n := by
      rw [← hidx]
      exact hid
    exact lastIdxOf_getElem hidL
  refine ⟨n, hid, hne, ⟨rn, hrn, hgid⟩, ?_⟩
  rcases hbr with ⟨hinc, hy, hmem⟩ | ⟨m, hmax, ps, rn', hps, hg', hy, hmem⟩
  · exact Or.inl ⟨hinc, hy, hmem⟩
  · have hmmem : m ∈ g.incoming n := List.max?_mem (fun a b => max_choice a b) hmax
    have hlt := incoming_lt hE hmmem
    obtain ⟨pe, hpe⟩ := getElem?_of_lt (show m < g.nodes.length by omega)
    refine Or.inr ⟨?_, m, hmax, fun p hp => le_of_mem_max hmax hp,
      pe, hpe, ps, rn', hps, hg', hy, hmem⟩
    intro hemp
    rw [hemp] at hmax
    cases hmax


/-- Two-statement program for the C1 witness: `x <- 1` then `y <- x`. -/
def c1prog : List RStmt :=
  [.Assignment (.Variable "x") .nil (.Constant "1"),
   .Assignment (.Variable "y") .nil (.Variable "x")]

def c1g : DependencyGraph :=
  match build_graph c1prog with
  | .ok g => g
  | .error _ => { nodes := [], edges := [], index := [], env := [] }

def c1stf : BuildState :=
  (runBuild c1g (c1prog.filterMap RStmt.expression) initialBuildState).getD
    initialBuildState

theorem claim_C1_witness :
    build_graph c1prog = .ok c1g ∧
    runBuild c1g (c1prog.filterMap RStmt.expression) initialBuildState = some c1stf ∧
    (c1prog.filterMap RStmt.expression)[1]? = some (RExp.Variable "x") ∧
    (∃ n, c1g.id (RExp.Variable "x") = some n ∧
      c1g.nodes[n]? = some (RExp.Variable "x") ∧
      (∃ rn, c1stf.nodes[1]? = some rn ∧ rn.graphId = n) ∧
      ((c1g.incoming n = [] ∧ ∃ hy, (hy, 1) ∈ c1stf.root) ∨
       (c1g.incoming n ≠ [] ∧ ∃ m, (c1g.incoming n).max? = some m ∧
         (∀ p ∈ c1g.incoming n, p ≤ m) ∧
         ∃ pe, c1g.nodes[m]? = some pe ∧
           ∃ (ps : Nat) (rn' : RefNodeM), c1stf.nodes[ps]? = some rn' ∧
             rn'.graphId = m ∧ ∃ hy, (hy, 1) ∈ rn'.children))) :=
  ⟨rfl, rfl, rfl, claim_C1 c1prog c1g c1stf rfl rfl 1 (RExp.Variable "x") rfl⟩



/-! Claims C2 and C3: canonical hypotheses sets under duplicate-free input. -/

theorem alookup_eq_none {α : Type} [DecidableEq α] {β : Type} :
    ∀ {l : List (α × β)} {k : α}, k ∉ l.map Prod.fst → alookup k l = none
  | [], _, _ => rfl
  | (k', v) :: rest, k, h => by
      simp only [List.map_cons, List.mem_cons] at h
      push_neg at h
      rw [alookup_cons, if_neg (fun hc => h.1 hc.symm)]
      exact alookup_eq_none h.2

theorem findEqIdx_none_iff {item : List String} :
    ∀ {m : List (List String)}, findEqIdx item m = none ↔ item ∉ m
  | [] => by simp [findEqIdx]
  | h :: rest => by
      unfold findEqIdx
      by_cases hh : h = item
      · rw [if_pos hh]
        subst hh
        simp
      · rw [if_neg hh]
        rw [Option.map_eq_none']
        rw [findEqIdx_none_iff]
        simp only [List.mem_cons]
        constructor
        · intro hn hc
          rcases hc with hc | hc
          · exact hh hc.symm
          · exact hn hc
        · intro hn hc
          exact hn (Or.inr hc)

theorem findEqIdx_getElem {item : List String} :
    ∀ {m : List (List String)} {j : Nat}, findEqIdx item m = some j →
      m[j]? = some item
  | [], j, h => by cases h
  | a :: rest, j, h => by
      unfold findEqIdx at h
      by_cases ha : a = item
      · rw [if_pos ha] at h
        cases h
        simpa using ha
      · rw [if_neg ha, Option.map_eq_some'] at h
        obtain ⟨j', hj', rfl⟩ := h
        simpa using findEqIdx_getElem hj'

theorem hypothesesMapInsert_mem {m : List (List String)} {item : List String}
    (h : item ∈ m) :
    ∃ j, hypothesesMapInsert m item = (j, m) ∧ m[j]? = some item := by
  rcases hf : findEqIdx item m with _ | j
  · exact absurd (findEqIdx_none_iff.mp hf) (by simpa using h)
  · exact ⟨j, by simp [hypothesesMapInsert, hf], findEqIdx_getElem hf⟩

theorem hypothesesMapInsert_not_mem {m : List (List String)} {item : List String}
    (h : item ∉ m) : hypothesesMapInsert m item = (m.length, m ++ [item]) := by
  rw [hypothesesMapInsert, findEqIdx_none_iff.mpr h]

theorem hypothesesMapInsert_getElem (m : List (List String)) (item : List String) :
    (hypothesesMapInsert m item).2[(hypothesesMapInsert m item).1]? = some item := by
  by_cases h : item ∈ m
  · obtain ⟨j, hins, hj⟩ := hypothesesMapInsert_mem h
    rw [hins]
    exact hj
  · rw [hypothesesMapInsert_not_mem h]
    simp

theorem hypothesesMapInsert_preserve (m : List (List String)) (item : List String)
    {j : Nat} {v : List String} (h : m[j]? = some v) :
    (hypothesesMapInsert m item).2[j]? = some v := by
  by_cases hmem : item ∈ m
  · obtain ⟨i, hins, _⟩ := hypothesesMapInsert_mem hmem
    rw [hins]
    exact h
  · rw [hypothesesMapInsert_not_mem hmem]
    rw [getElem?_append_left' (getElem?_some_lt h)]
    exact h

theorem hypothesesMapInsert_nodup {m : List (List String)} {item : List String}
    (h : m.Nodup) : (hypothesesMapInsert m item).2.Nodup := by
  by_cases hmem : item ∈ m
  · obtain ⟨i, hins, _⟩ := hypothesesMapInsert_mem hmem
    rw [hins]
    exact h
  · rw [hypothesesMapInsert_not_mem hmem]
    rw [List.nodup_append]
    exact ⟨h, List.nodup_singleton _, by simpa using fun hc => hmem hc⟩

/-- The canonical hypotheses set of graph node `i`, by fuel. -/
def Hfuel (g : DependencyGraph) : Nat → Nat → List String
  | 0, _ => []
  | fuel + 1, i =>
      hypUnionL ((g.nodes[i]?.map detectExp).getD [])
        (((g.incoming i).map (fun p => Hfuel g fuel p)).flatten)

/-- The canonical hypotheses set of graph node `i`: its own detected
hypotheses united with those of its direct predecessors. -/
def Hcan (g : DependencyGraph) (i : Nat) : List String := Hfuel g (i + 1) i

theorem Hfuel_stab {g : DependencyGraph}
    (hE : ∀ p ∈ g.edges, p.1 < p.2 ∧ p.2 < g.nodes.length) :
    ∀ (i f1 f2 : Nat), i < f1 → i < f2 → Hfuel g f1 i = Hfuel g f2 i := by
  intro i
  induction i using Nat.strong_induction_on with
  | _ i ih =>
    intro f1 f2 h1 h2
    cases f1 with
    | zero => omega
    | succ a =>
      cases f2 with
      | zero => omega
      | succ b =>
        show Hfuel g (a + 1) i = Hfuel g (b + 1) i
        unfold Hfuel
        congr 1
        congr 1
        apply List.map_congr_left
        intro p hp
        have hpi : p < i := (hE _ (mem_incoming.mp hp)).1
        exact ih p hpi a b (by omega) (by omega)

theorem Hcan_eq {g : DependencyGraph}
    (hE : ∀ p ∈ g.edges, p.1 < p.2 ∧ p.2 < g.nodes.length)
    {i : Nat} {e : RExp} (hi : g.nodes[i]? = some e) :
    Hcan g i = hypUnionL (detectExp e)
      (((g.incoming i).map (fun p => Hcan g p)).flatten) := by
  show Hfuel g (i + 1) i = _
  unfold Hfuel
  rw [hi]
  show hypUnionL (detectExp e) _ = _
  congr 1
  congr 1
  apply List.map_congr_left
  intro p hp
  have hpi : p < i := (hE _ (mem_incoming.mp hp)).1
  exact Hfuel_stab hE p i (p + 1) hpi (Nat.lt_succ_self p)

theorem mem_Hcan {g : DependencyGraph}
    (hE : ∀ p ∈ g.edges, p.1 < p.2 ∧ p.2 < g.nodes.length)
    {i : Nat} {e : RExp} (hi : g.nodes[i]? = some e) {x : String} :
    x ∈ Hcan g i ↔ x ∈ detectExp e ∨ ∃ p ∈ g.incoming i, x ∈ Hcan g p := by
  rw [Hcan_eq hE hi, mem_hypUnionL, List.mem_flatten]
  constructor
  · rintro (hx | ⟨l, hl, hx⟩)
    · exact Or.inl hx
    · obtain ⟨p, hp, rfl⟩ := List.mem_map.mp hl
      exact Or.inr ⟨p, hp, hx⟩
  · rintro (hx | ⟨p, hp, hx⟩)
    · exact Or.inl hx
    · exact Or.inr ⟨Hcan g p, List.mem_map.mpr ⟨p, hp, rfl⟩, hx⟩

/-- Invariant of the hypotheses and expression maps after processing the
first `k` expressions of a duplicate-free node list. -/
structure EMOK (g : DependencyGraph) (k : Nat) (st : BuildState) : Prop where
  keys : st.expressionMap.map Prod.fst = (g.nodes.take k).reverse
  stored : ∀ j e, j < k → g.nodes[j]? = some e →
    ∃ id, alookup e st.expressionMap = some id ∧
      st.hypothesesMap[id]? = some (Hcan g j)
  nodup : st.hypothesesMap.Nodup
  surj : ∀ id, id < st.hypothesesMap.length →
    ∃ j e, j < k ∧ g.nodes[j]? = some e ∧ alookup e st.expressionMap = some id

theorem emok_init (g : DependencyGraph) : EMOK g 0 initialBuildState :=
  ⟨rfl, fun j _ hj _ => absurd hj (by omega), List.nodup_nil,
   fun id hid => absurd hid (by simp [initialBuildState])⟩

theorem not_mem_take_of_nodup {g : DependencyGraph} (hND : g.nodes.Nodup)
    {k : Nat} {e : RExp} (hk : g.nodes[k]? = some e) : e ∉ g.nodes.take k := by
  intro hmem
  obtain ⟨j, hj, hje⟩ := List.getElem_of_mem hmem
  rw [List.getElem_take] at hje
  have hjlen : j < g.nodes.length := by
    have := getElem?_some_lt hk
    rw [List.length_take] at hj
    omega
  have hj' : g.nodes[j]? = some e := by
    rw [List.getElem?_eq_getElem hjlen]
    exact congrArg some hje
  have h1 := lastIdxOf_of_nodup hND hj'
  have h2 := lastIdxOf_of_nodup hND hk
  rw [h1] at h2
  cases h2
  rw [List.length_take] at hj
  omega

theorem nodes_ne_of_nodup {g : DependencyGraph} (hND : g.nodes.Nodup)
    {j k : Nat} {ej ek : RExp} (hj : g.nodes[j]? = some ej)
    (hk : g.nodes[k]? = some ek) (hjk : j ≠ k) : ej ≠ ek := by
  intro he
  subst he
  have h1 := lastIdxOf_of_nodup hND hj
  have h2 := lastIdxOf_of_nodup hND hk
  rw [h1] at h2
  cases h2
  exact hjk rfl

theorem collect_canon {g : DependencyGraph}
    (hE : ∀ p ∈ g.edges, p.1 < p.2 ∧ p.2 < g.nodes.length)
    (hidx : ∀ e, g.id e = lastIdxOf e g.nodes)
    (hND : g.nodes.Nodup) {k : Nat} {e : RExp} {st : BuildState}
    (hok : EMOK g k st) (hk : g.nodes[k]? = some e)
    {hm : List (List String)} {em : List (RExp × Nat)}
    (hc : collect_hypotheses g e st.hypothesesMap st.expressionMap = some (hm, em)) :
    hm = (hypothesesMapInsert st.hypothesesMap (Hcan g k)).2 ∧
    em = (e, (hypothesesMapInsert st.hypothesesMap (Hcan g k)).1) ::
      st.expressionMap := by
  have hid : g.id e = some k := by
    rw [hidx]
    exact lastIdxOf_of_nodup hND hk
  have hmap : mapMO (fun p => do
      let exp ← g.nodes[p]?
      match alookup exp st.expressionMap with
      | some id => st.hypothesesMap[id]?
      | none => some (detectExp exp)) (g.incoming k)
      = some ((g.incoming k).map (fun p => Hcan g p)) := by
    apply mapMO_eq_some
    intro p hp
    have hpk := hE _ (mem_incoming.mp hp)
    obtain ⟨ep, hep⟩ := getElem?_of_lt (show p < g.nodes.length by omega)
    obtain ⟨idp, halook, hstore⟩ := hok.stored p ep hpk.1 hep
    show (g.nodes[p]?.bind fun exp =>
        match alookup exp st.expressionMap with
        | some id => st.hypothesesMap[id]?
        | none => some (detectExp exp)) = some (Hcan g p)
    rw [hep]
    show (match alookup ep st.expressionMap with
        | some id => st.hypothesesMap[id]?
        | none => some (detectExp ep)) = some (Hcan g p)
    rw [halook]
    exact hstore
  have hnone : alookup e st.expressionMap = none := by
    apply alookup_eq_none
    rw [hok.keys, List.mem_reverse]
    exact not_mem_take_of_nodup hND hk
  have hcanon : hypUnionL (detectExp e)
      ((g.incoming k).map (fun p => Hcan g p)).flatten = Hcan g k :=
    (Hcan_eq hE hk).symm
  rw [collect_hypotheses] at hc
  rw [hid] at hc
  simp only [bind, Option.bind_eq_some] at hc
  obtain ⟨nodeId, hnid, hc⟩ := hc
  cases hnid
  obtain ⟨lists, hlists, hc⟩ := hc
  have hlists' := hmap.symm.trans hlists
  cases hlists'
  rw [hnone] at hc
  rw [hcanon] at hc
  rcases hins : hypothesesMapInsert st.hypothesesMap (Hcan g k) with ⟨id, hm'⟩
  rw [hins] at hc
  simp only [Option.some.injEq, Prod.mk.injEq] at hc
  exact ⟨hc.1.symm, hc.2.symm⟩

theorem treeStep_emok {g : DependencyGraph}
    (hE : ∀ p ∈ g.edges, p.1 < p.2 ∧ p.2 < g.nodes.length)
    (hidx : ∀ e, g.id e = lastIdxOf e g.nodes)
    (hND : g.nodes.Nodup) {k : Nat} {e : RExp} {st st' : BuildState}
    (hok : EMOK g k st) (hk : g.nodes[k]? = some e)
    (h : treeStep g st e = some st') : EMOK g (k + 1) st' := by
  obtain ⟨hm, em, hypId, n, hc, hl, hid2, hem, hhm, hnmap, hbranch⟩ := treeStep_shape h
  obtain ⟨hhm', hem'⟩ := collect_canon hE hidx hND hok hk hc
  rw [hhm'] at hhm
  rw [hem'] at hem
  refine ⟨?_, ?_, ?_, ?_⟩
  · rw [hem]
    show ((e, _) :: st.expressionMap).map Prod.fst = (g.nodes.take (k + 1)).reverse
    rw [List.take_succ, hk]
    simp only [Option.toList_some, List.reverse_append, List.reverse_singleton,
      List.map_cons, hok.keys]
    rfl
  · intro j ej hj hje
    rw [hem, hhm]
    by_cases hjk : j = k
    · subst hjk
      have he : ej = e := by
        rw [hje] at hk
        cases hk
        rfl
      subst he
      refine ⟨(hypothesesMapInsert st.hypothesesMap (Hcan g j)).1, ?_, ?_⟩
      · rw [alookup_cons, if_pos rfl]
      · exact hypothesesMapInsert_getElem _ _
    · have hj' : j < k := by omega
      obtain ⟨id, halook, hstore⟩ := hok.stored j ej hj' hje
      refine ⟨id, ?_, hypothesesMapInsert_preserve _ _ hstore⟩
      rw [alookup_cons, if_neg (nodes_ne_of_nodup hND hk hje (fun hc' => hjk hc'.symm))]
      exact halook
  · rw [hhm]
    exact hypothesesMapInsert_nodup hok.nodup
  · intro id hid
    rw [hhm] at hid
    rw [hem]
    by_cases hmem : Hcan g k ∈ st.hypothesesMap
    · obtain ⟨i, hins, hi⟩ := hypothesesMapInsert_mem hmem
      rw [hins] at hid
      obtain ⟨j, ej, hj, hje, halook⟩ := hok.surj id hid
      refine ⟨j, ej, by omega, hje, ?_⟩
      rw [alookup_cons,
        if_neg (nodes_ne_of_nodup hND hk hje (fun hc' => (by omega : j ≠ k) hc'.symm))]
      exact halook
    · rw [hypothesesMapInsert_not_mem hmem] at hid ⊢
      simp only [List.length_append, List.length_singleton] at hid
      by_cases hidl : id < st.hypothesesMap.length
      · obtain ⟨j, ej, hj, hje, halook⟩ := hok.surj id hidl
        refine ⟨j, ej, by omega, hje, ?_⟩
        rw [alookup_cons,
          if_neg (nodes_ne_of_nodup hND hk hje (fun hc' => (by omega : j ≠ k) hc'.symm))]
        exact halook
      · have hide : id = st.hypothesesMap.length := by omega
        subst hide
        refine ⟨k, e, by omega, hk, ?_⟩
        rw [alookup_cons, if_pos rfl]

theorem runBuild_emok {g : DependencyGraph}
    (hE : ∀ p ∈ g.edges, p.1 < p.2 ∧ p.2 < g.nodes.length)
    (hidx : ∀ e, g.id e = lastIdxOf e g.nodes)
    (hND : g.nodes.Nodup) :
    ∀ (rest : List RExp) (k : Nat) (st stf : BuildState),
    g.nodes.drop k = rest → runBuild g rest st = some stf → EMOK g k st →
    EMOK g g.nodes.length stf := by
  intro rest
  induction rest with
  | nil =>
    intro k st stf hdrop hrun hok
    rw [runBuild] at hrun
    cases hrun
    have hlk : g.nodes.length ≤ k := by
      by_contra hc
      rw [List.drop_eq_nil_iff] at hdrop
      omega
    refine ⟨?_, ?_, hok.nodup, ?_⟩
    · rw [hok.keys, List.take_of_length_le hlk,
        List.take_of_length_le (Nat.le_refl _)]
    · intro j e hj hje
      exact hok.stored j e (by omega) hje
    · intro id hid
      obtain ⟨j, e, hj, hje, halook⟩ := hok.surj id hid
      exact ⟨j, e, getElem?_some_lt hje, hje, halook⟩
  | cons e rest' ih =>
    intro k st stf hdrop hrun hok
    have hklen : k < g.nodes.length := by
      by_contra hc
      rw [List.drop_eq_nil_iff.mpr (by omega)] at hdrop
      cases hdrop
    have hdrop' : g.nodes.drop k = g.nodes[k] :: g.nodes.drop (k + 1) :=
      List.drop_eq_getElem_cons hklen
    rw [hdrop] at hdrop'
    injection hdrop' with he hrest
    have hk : g.nodes[k]? = some e := by
      rw [List.getElem?_eq_getElem hklen]
      exact congrArg some he.symm
    rw [runBuild] at hrun
    cases hstep : treeStep g st e with
    | none => rw [hstep] at hrun; cases hrun
    | some st' =>
      rw [hstep] at hrun
      exact ih (k + 1) st' stf hrest.symm hrun
        (treeStep_emok hE hidx hND hok hk hstep)


/-- The hypotheses set finally recorded for an expression: its id in the
expression map, resolved in the hypotheses map. -/
def recordedSet (st : BuildState) (e : RExp) : Option (List String) :=
  (alookup e st.expressionMap).bind (fun id => st.hypothesesMap[id]?)

/-- C2 (amended): when the processed expressions are pairwise distinct, the
set recorded for each processed expression is exactly its detected
hypotheses united with the recorded sets of its direct predecessors, and
along every edge the source set is contained in the target set. -/
theorem claim_C2 (input : List RStmt) (g : DependencyGraph) (stf : BuildState)
    (hg : build_graph input = .ok g)
    (hrun : runBuild g (input.filterMap RStmt.expression) initialBuildState
      = some stf)
    (hND : (input.filterMap RStmt.expression).Nodup) :
    (∀ (i : Nat) (e : RExp), (input.filterMap RStmt.expression)[i]? = some e →
      g.id e = some i ∧
      ∃ hs, recordedSet stf e = some hs ∧
        ∀ x : String, (x ∈ hs ↔ x ∈ detectExp e ∨
          ∃ p ∈ g.incoming i, ∃ pe phs, g.nodes[p]? = some pe ∧
            recordedSet stf pe = some phs ∧ x ∈ phs)) ∧
    (∀ u v : Nat, (u, v) ∈ g.edges → ∀ ue ve : RExp, ∀ uhs vhs : List String,
      g.nodes[u]? = some ue → g.nodes[v]? = some ve →
      recordedSet stf ue = some uhs → recordedSet stf ve = some vhs →
      ∀ x ∈ uhs, x ∈ vhs) := by
  obtain ⟨hnodes, hE, hidx⟩ := build_graph_inv hg
  rw [← hnodes] at hrun hND
  have hok := runBuild_emok hE hidx hND g.nodes 0 initialBuildState stf
    rfl hrun (emok_init g)
  have hrec : ∀ (j : Nat) (e : RExp), g.nodes[j]? = some e →
      recordedSet stf e = some (Hcan g j) := by
    intro j e hj
    obtain ⟨id, ha, hs⟩ := hok.stored j e (getElem?_some_lt hj) hj
    unfold recordedSet
    rw [ha]
    exact hs
  constructor
  · intro i e hi
    rw [← hnodes] at hi
    have hid : g.id e = some i := by
      rw [hidx]
      exact lastIdxOf_of_nodup hND hi
    refine ⟨hid, Hcan g i, hrec i e hi, ?_⟩
    intro x
    rw [mem_Hcan hE hi]
    constructor
    · rintro (hx | ⟨p, hp, hx⟩)
      · exact Or.inl hx
      · have hpb := hE _ (mem_incoming.mp hp)
        obtain ⟨pe, hpe⟩ := getElem?_of_lt (show p < g.nodes.length by omega)
        exact Or.inr ⟨p, hp, pe, Hcan g p, hpe, hrec p pe hpe, hx⟩
    · rintro (hx | ⟨p, hp, pe, phs, hpe, hrecpe, hx⟩)
      · exact Or.inl hx
      · have hcan := hrec p pe hpe
        rw [hcan] at hrecpe
        have := Option.some.inj hrecpe
        subst this
        exact Or.inr ⟨p, hp, hx⟩
  · intro u v huv ue ve uhs vhs hue hve hru hrv x hx
    have hub := hE _ huv
    have hrecu := hrec u ue hue
    have hrecv := hrec v ve hve
    rw [hrecu] at hru
    rw [hrecv] at hrv
    have hu := Option.some.inj hru
    have hv := Option.some.inj hrv
    subst hu
    subst hv
    apply (mem_Hcan hE hve).mpr
    exact Or.inr ⟨u, mem_incoming.mpr huv, hx⟩

/-- C3 (amended): `HypothesesMap::insert` reuses the index of an equal
stored set and otherwise appends; when the processed expressions are
pairwise distinct, the ids handed out fill `[0, n)` and two processed
expressions share an id exactly when their recorded sets are equal. -/
theorem claim_C3 (input : List RStmt) (g : DependencyGraph) (stf : BuildState)
    (hg : build_graph input = .ok g)
    (hrun : runBuild g (input.filterMap RStmt.expression) initialBuildState
      = some stf)
    (hND : (input.filterMap RStmt.expression).Nodup) :
    (∀ (m : List (List String)) (item : List String),
      (item ∈ m → ∃ j, hypothesesMapInsert m item = (j, m) ∧ m[j]? = some item) ∧
      (item ∉ m → hypothesesMapInsert m item = (m.length, m ++ [item]))) ∧
    (∀ (i : Nat) (e : RExp), (input.filterMap RStmt.expression)[i]? = some e →
      ∃ id, alookup e stf.expressionMap = some id ∧
        id < stf.hypothesesMap.length) ∧
    (∀ id, id < stf.hypothesesMap.length → ∃ (i : Nat) (e : RExp),
      (input.filterMap RStmt.expression)[i]? = some e ∧
      alookup e stf.expressionMap = some id) ∧
    (∀ (i j : Nat) (ei ej : RExp) (idi idj : Nat),
      (input.filterMap RStmt.expression)[i]? = some ei →
      (input.filterMap RStmt.expression)[j]? = some ej →
      alookup ei stf.expressionMap = some idi →
      alookup ej stf.expressionMap = some idj →
      (idi = idj ↔ recordedSet stf ei = recordedSet stf ej)) := by
  obtain ⟨hnodes, hE, hidx⟩ := build_graph_inv hg
  rw [← hnodes] at hrun hND
  have hok := runBuild_emok hE hidx hND g.nodes 0 initialBuildState stf
    rfl hrun (emok_init g)
  refine ⟨?_, ?_, ?_, ?_⟩
  · intro m item
    exact ⟨hypothesesMapInsert_mem, hypothesesMapInsert_not_mem⟩
  · intro i e hi
    rw [← hnodes] at hi
    obtain ⟨id, ha, hs⟩ := hok.stored i e (getElem?_some_lt hi) hi
    exact ⟨id, ha, getElem?_some_lt hs⟩
  · intro id hid
    obtain ⟨j, e, hj, hje, ha⟩ := hok.surj id hid
    rw [hnodes] at hje
    exact ⟨j, e, hje, ha⟩
  · intro i j ei ej idi idj hi hj hai haj
    rw [← hnodes] at hi hj
    obtain ⟨idi', hai', hsi⟩ := hok.stored i ei (getElem?_some_lt hi) hi
    obtain ⟨idj', haj', hsj⟩ := hok.stored j ej (getElem?_some_lt hj) hj
    rw [hai] at hai'
    rw [haj] at haj'
    have hii := Option.some.inj hai'
    have hjj := Option.some.inj haj'
    subst hii
    subst hjj
    have hrei : recordedSet stf ei = stf.hypothesesMap[idi]? := by
      unfold recordedSet
      rw [hai]
      rfl
    have hrej : recordedSet stf ej = stf.hypothesesMap[idj]? := by
      unfold recordedSet
      rw [haj]
      rfl
    constructor
    · intro h
      rw [hrei, hrej, h]
    · intro h
      rw [hrei, hrej, hsi, hsj] at h
      have hcc := Option.some.inj h
      rw [← hcc] at hsj
      have h1 := lastIdxOf_of_nodup hok.nodup hsi
      have h2 := lastIdxOf_of_nodup hok.nodup hsj
      rw [h1] at h2
      exact Option.some.inj h2

/-- The counterexample program: duplicate rhs values (`g <- 1` twice)
feeding a formula hypothesis through `h <- w`. -/
def c23prog : List RStmt :=
  [.Assignment (.Variable "w") .nil
     (.Formula (.TwoSided (.Variable "Alpha") (.Variable "Beta"))),
   .Assignment (.Variable "g") .nil (.Constant "1"),
   .Assignment (.Variable "x") .nil (.InfixOp "+" (.Variable "g") (.Variable "h")),
   .Assignment (.Variable "h") .nil (.Variable "w"),
   .Assignment (.Variable "g") .nil (.Constant "1"),
   .Assignment (.Variable "y") .nil (.InfixOp "+" (.Variable "g") (.Variable "h"))]

def c23g : DependencyGraph :=
  match build_graph c23prog with
  | .ok g => g
  | .error _ => { nodes := [], edges := [], index := [], env := [] }

def c23stf : BuildState :=
  (runBuild c23g (c23prog.filterMap RStmt.expression) initialBuildState).getD
    initialBuildState

/-- C2 fails without the distinctness hypothesis: the second `1` has no
incoming edges and detects nothing, yet its recorded set is
`["Alpha ~ Beta"]` (the set mutated in place through the shared id). -/
theorem claim_C2_counterexample :
    build_graph c23prog = .ok c23g ∧
    runBuild c23g (c23prog.filterMap RStmt.expression) initialBuildState
      = some c23stf ∧
    (c23prog.filterMap RStmt.expression)[4]? = some (RExp.Constant "1") ∧
    c23g.id (RExp.Constant "1") = some 4 ∧
    c23g.incoming 4 = [] ∧
    detectExp (RExp.Constant "1") = [] ∧
    recordedSet c23stf (RExp.Constant "1") = some ["Alpha ~ Beta"] ∧
    (["Alpha ~ Beta"] : List String) ≠ [] :=
  ⟨rfl, rfl, rfl, rfl, rfl, rfl, rfl, by decide⟩

/-- C3 fails without the distinctness hypothesis: `w` and `1` carry the
different ids 0 and 1 although their recorded sets are equal. -/
theorem claim_C3_counterexample :
    build_graph c23prog = .ok c23g ∧
    runBuild c23g (c23prog.filterMap RStmt.expression) initialBuildState
      = some c23stf ∧
    (c23prog.filterMap RStmt.expression)[3]? = some (RExp.Variable "w") ∧
    (c23prog.filterMap RStmt.expression)[4]? = some (RExp.Constant "1") ∧
    alookup (RExp.Variable "w") c23stf.expressionMap = some 0 ∧
    alookup (RExp.Constant "1") c23stf.expressionMap = some 1 ∧
    recordedSet c23stf (RExp.Variable "w")
      = recordedSet c23stf (RExp.Constant "1") ∧
    (0 : Nat) ≠ 1 :=
  ⟨rfl, rfl, rfl, rfl, rfl, rfl, rfl, by decide⟩

/-- A duplicate-free program (`x <- 1`, `y <- x + 2`) for the witnesses. -/
def ndprog : List RStmt :=
  [.Assignment (.Variable "x") .nil (.Constant "1"),
   .Assignment (.Variable "y") .nil
     (.InfixOp "+" (.Variable "x") (.Constant "2"))]

def ndg : DependencyGraph :=
  match build_graph ndprog with
  | .ok g => g
  | .error _ => { nodes := [], edges := [], index := [], env := [] }

def ndstf : BuildState :=
  (runBuild ndg (ndprog.filterMap RStmt.expression) initialBuildState).getD
    initialBuildState

theorem claim_C2_witness :
    build_graph ndprog = .ok ndg ∧
    runBuild ndg (ndprog.filterMap RStmt.expression) initialBuildState
      = some ndstf ∧
    (ndprog.filterMap RStmt.expression).Nodup ∧
    ((∀ (i : Nat) (e : RExp), (ndprog.filterMap RStmt.expression)[i]? = some e →
      ndg.id e = some i ∧
      ∃ hs, recordedSet ndstf e = some hs ∧
        ∀ x : String, (x ∈ hs ↔ x ∈ detectExp e ∨
          ∃ p ∈ ndg.incoming i, ∃ pe phs, ndg.nodes[p]? = some pe ∧
            recordedSet ndstf pe = some phs ∧ x ∈ phs)) ∧
    (∀ u v : Nat, (u, v) ∈ ndg.edges → ∀ ue ve : RExp, ∀ uhs vhs : List String,
      ndg.nodes[u]? = some ue → ndg.nodes[v]? = some ve →
      recordedSet ndstf ue = some uhs → recordedSet ndstf ve = some vhs →
      ∀ x ∈ uhs, x ∈ vhs)) :=
  ⟨rfl, rfl, by decide, claim_C2 ndprog ndg ndstf rfl rfl (by decide)⟩

theorem claim_C3_witness :
    build_graph ndprog = .ok ndg ∧
    runBuild ndg (ndprog.filterMap RStmt.expression) initialBuildState
      = some ndstf ∧
    (ndprog.filterMap RStmt.expression).Nodup ∧
    ((∀ (m : List (List String)) (item : List String),
      (item ∈ m → ∃ j, hypothesesMapInsert m item = (j, m) ∧ m[j]? = some item) ∧
      (item ∉ m → hypothesesMapInsert m item = (m.length, m ++ [item]))) ∧
    (∀ (i : Nat) (e : RExp), (ndprog.filterMap RStmt.expression)[i]? = some e →
      ∃ id, alookup e ndstf.expressionMap = some id ∧
        id < ndstf.hypothesesMap.length) ∧
    (∀ id, id < ndstf.hypothesesMap.length → ∃ (i : Nat) (e : RExp),
      (ndprog.filterMap RStmt.expression)[i]? = some e ∧
      alookup e ndstf.expressionMap = some id) ∧
    (∀ (i j : Nat) (ei ej : RExp) (idi idj : Nat),
      (ndprog.filterMap RStmt.expression)[i]? = some ei →
      (ndprog.filterMap RStmt.expression)[j]? = some ej →
      alookup ei ndstf.expressionMap = some idi →
      alookup ej ndstf.expressionMap = some idj →
      (idi = idj ↔ recordedSet ndstf ei = recordedSet ndstf ej))) :=
  ⟨rfl, rfl, by decide, claim_C3 ndprog ndg ndstf rfl rfl (by decide)⟩



/-! Claim C4: counting node contents of the converted tree. -/

theorem insertNat_perm (x : Nat) : ∀ (l : List Nat), List.Perm (insertNat x l) (x :: l)
  | [] => List.Perm.refl _
  | y :: rest => by
      unfold insertNat
      by_cases h : x ≤ y
      · rw [if_pos h]
      · rw [if_neg h]
        exact (List.Perm.cons y (insertNat_perm x rest)).trans (List.Perm.swap x y rest)

theorem sortNat_perm : ∀ (l : List Nat), List.Perm (sortNat l) l
  | [] => List.Perm.refl _
  | a :: l => by
      show List.Perm (insertNat a (sortNat l)) (a :: l)
      exact (insertNat_perm a (sortNat l)).trans (List.Perm.cons a (sortNat_perm l))

theorem mem_dedupKeys {x : Nat} : ∀ {l : List Nat}, x ∈ dedupKeys l ↔ x ∈ l
  | [] => Iff.rfl
  | k :: rest => by
      unfold dedupKeys
      by_cases h : k ∈ rest
      · rw [if_pos h]
        rw [mem_dedupKeys]
        simp only [List.mem_cons]
        constructor
        · exact Or.inr
        · rintro (rfl | hx)
          · exact h
          · exact hx
      · rw [if_neg h]
        simp only [List.mem_cons, mem_dedupKeys]

theorem nodup_dedupKeys : ∀ (l : List Nat), (dedupKeys l).Nodup
  | [] => List.nodup_nil
  | k :: rest => by
      unfold dedupKeys
      by_cases h : k ∈ rest
      · rw [if_pos h]
        exact nodup_dedupKeys rest
      · rw [if_neg h]
        exact List.nodup_cons.mpr ⟨fun hc => h (mem_dedupKeys.mp hc), nodup_dedupKeys rest⟩

theorem bucketKeys_nodup (log : List (Nat × Nat)) : (bucketKeys log).Nodup :=
  ((sortNat_perm _).nodup_iff).mpr (nodup_dedupKeys _)

theorem mem_bucketKeys {log : List (Nat × Nat)} {k : Nat} :
    k ∈ bucketKeys log ↔ k ∈ log.map Prod.fst :=
  ((sortNat_perm _).mem_iff).trans mem_dedupKeys

theorem mem_bucket {log : List (Nat × Nat)} {k c : Nat} (h : c ∈ bucket log k) :
    ∃ hh, (hh, c) ∈ log := by
  unfold bucket at h
  obtain ⟨p, hp, hf⟩ := List.mem_filterMap.mp h
  by_cases h1 : p.1 = k
  · rw [if_pos h1] at hf
    cases hf
    exact ⟨p.1, by simpa using hp⟩
  · rw [if_neg h1] at hf
    cases hf

theorem sum_map_add {α : Type} (f g : α → Nat) :
    ∀ (l : List α), (l.map (fun x => f x + g x)).sum = (l.map f).sum + (l.map g).sum
  | [] => rfl
  | a :: l => by
      simp only [List.map_cons, List.sum_cons, sum_map_add f g l]
      omega

theorem bucket_cons (k : Nat) (p : Nat × Nat) (rest : List (Nat × Nat)) :
    bucket (p :: rest) k
      = if p.1 = k then p.2 :: bucket rest k else bucket rest k := by
  unfold bucket
  rw [List.filterMap_cons]
  by_cases h : p.1 = k
  · simp [h]
  · simp [h]

theorem countNodeList_convertSerials (f : Nat → HNode) (q : RExp) :
    ∀ (ss : List Nat),
    countNodeList q (convertSerials f ss) = (ss.map (fun c => countNode q (f c))).sum
  | [] => rfl
  | c :: ss => by
      show countNode q (f c) + countNodeList q (convertSerials f ss) = _
      rw [countNodeList_convertSerials f q ss]
      simp

theorem bucket_sum (F : Nat → Nat) (k : Nat) :
    ∀ (log : List (Nat × Nat)),
    ((bucket log k).map F).sum = (log.map (fun p => if p.1 = k then F p.2 else 0)).sum
  | [] => rfl
  | p :: rest => by
      rw [bucket_cons, List.map_cons, List.sum_cons]
      by_cases hk : p.1 = k
      · rw [if_pos hk, List.map_cons, List.sum_cons, bucket_sum F k rest, if_pos hk]
      · rw [if_neg hk, bucket_sum F k rest, if_neg hk]
        omega

theorem sum_indicator_split (F : Nat × Nat → Nat) {k : Nat} {ks : List Nat}
    (hk : k ∉ ks) : ∀ (log : List (Nat × Nat)),
    (log.map (fun p => if p.1 = k then F p else 0)).sum
      + (log.map (fun p => if p.1 ∈ ks then F p else 0)).sum
      = (log.map (fun p => if p.1 ∈ k :: ks then F p else 0)).sum
  | [] => rfl
  | p :: rest => by
      simp only [List.map_cons, List.sum_cons]
      rw [← sum_indicator_split F hk rest]
      by_cases h1 : p.1 = k
      · have h2 : p.1 ∉ ks := by rw [h1]; exact hk
        have h3 : p.1 ∈ k :: ks := by rw [h1]; exact List.mem_cons_self _ _
        rw [if_pos h1, if_neg h2, if_pos h3]
        omega
      · by_cases h2 : p.1 ∈ ks
        · have h3 : p.1 ∈ k :: ks := List.mem_cons_of_mem _ h2
          rw [if_neg h1, if_pos h2, if_pos h3]
          omega
        · have h3 : p.1 ∉ k :: ks := by
            simp only [List.mem_cons]
            push_neg
            exact ⟨h1, h2⟩
          rw [if_neg h1, if_neg h2, if_neg h3]
          omega

theorem convertKeyed_sum (f : Nat → HNode) (q : RExp) :
    ∀ (ks : List Nat), ks.Nodup → ∀ (log : List (Nat × Nat)),
    countBranches q (convertKeyed f log ks)
      = (log.map (fun p => if p.1 ∈ ks then countNode q (f p.2) else 0)).sum
  | [], _, log => by
      show 0 = _
      induction log with
      | nil => rfl
      | cons p rest ih =>
          rw [List.map_cons, List.sum_cons, ← ih, if_neg (List.not_mem_nil _)]
  | k :: ks, hnd, log => by
      obtain ⟨hk, hnd'⟩ := List.nodup_cons.mp hnd
      show countNodeList q (convertSerials f (bucket log k))
        + countBranches q (convertKeyed f log ks) = _
      rw [countNodeList_convertSerials,
        bucket_sum (fun c => countNode q (f c)) k log,
        convertKeyed_sum f q ks hnd' log]
      exact sum_indicator_split (fun p => countNode q (f p.2)) hk log

theorem convertLog_sum (f : Nat → HNode) (q : RExp) (log : List (Nat × Nat)) :
    countBranches q (convertLog f log)
      = (log.map (fun p => countNode q (f p.2))).sum := by
  show countBranches q (convertKeyed f log (bucketKeys log)) = _
  rw [convertKeyed_sum f q (bucketKeys log) (bucketKeys_nodup log) log]
  apply congrArg List.sum
  apply List.map_congr_left
  intro p hp
  rw [if_pos (mem_bucketKeys.mpr (List.mem_map_of_mem Prod.fst hp))]

theorem convertSerials_congr {f fn : Nat → HNode} :
    ∀ {ss : List Nat}, (∀ c ∈ ss, f c = fn c) →
    convertSerials f ss = convertSerials fn ss
  | [], _ => rfl
  | c :: ss, h => by
      show HNodeList.cons (f c) (convertSerials f ss)
        = HNodeList.cons (fn c) (convertSerials fn ss)
      rw [h c (List.mem_cons_self _ _),
        convertSerials_congr (fun d hd => h d (List.mem_cons_of_mem _ hd))]

theorem convertKeyed_congr {f fn : Nat → HNode} {log : List (Nat × Nat)}
    (h : ∀ c, (∃ hh, (hh, c) ∈ log) → f c = fn c) :
    ∀ (ks : List Nat), convertKeyed f log ks = convertKeyed fn log ks
  | [] => rfl
  | k :: ks => by
      show HBranches.cons k (convertSerials f (bucket log k)) (convertKeyed f log ks)
        = HBranches.cons k (convertSerials fn (bucket log k)) (convertKeyed fn log ks)
      rw [convertSerials_congr (fun c hc => h c (mem_bucket hc)),
        convertKeyed_congr h ks]

theorem convertLog_congr {f fn : Nat → HNode} {log : List (Nat × Nat)}
    (h : ∀ c, (∃ hh, (hh, c) ∈ log) → f c = fn c) :
    convertLog f log = convertLog fn log :=
  convertKeyed_congr h (bucketKeys log)

theorem childrenAt_oob {N : List RefNodeM} {s : Nat} (h : N.length ≤ s) :
    childrenAt N s = [] := by
  unfold childrenAt
  rw [List.getElem?_eq_none h]

theorem convertLog_nil (f : Nat → HNode) : convertLog f [] = .nil := rfl

theorem convertSerial_oob (g : DependencyGraph) (N : List RefNodeM) {s : Nat}
    (h : N.length ≤ s) : ∀ (f : Nat), convertSerial g N f s = .mk (contentAt g N s) .nil
  | 0 => rfl
  | f + 1 => by
      show HNode.mk _ (convertLog (fun c => convertSerial g N f c) (childrenAt N s)) = _
      rw [childrenAt_oob h, convertLog_nil]

/-- Serial ordering of the reference-node forest: children strictly follow
their parent and stay in bounds. -/
def OrdOK (N : List RefNodeM) : Prop :=
  ∀ (s : Nat) (rn : RefNodeM), N[s]? = some rn →
    ∀ p ∈ rn.children, s < p.2 ∧ p.2 < N.length

theorem childrenAt_bound {N : List RefNodeM} (h : OrdOK N) (s : Nat) :
    ∀ p ∈ childrenAt N s, s < p.2 ∧ p.2 < N.length := by
  intro p hp
  unfold childrenAt at hp
  rcases hs : N[s]? with _ | rn
  · rw [hs] at hp
    cases hp
  · rw [hs] at hp
    exact h s rn hs p hp

theorem convertSerial_stab {g : DependencyGraph} {N : List RefNodeM}
    (hOrd : OrdOK N) : ∀ (k s f1 f2 : Nat), N.length - s ≤ k →
    N.length - s ≤ f1 → N.length - s ≤ f2 →
    convertSerial g N f1 s = convertSerial g N f2 s := by
  intro k
  induction k with
  | zero =>
    intro s f1 f2 hk h1 h2
    have hs : N.length ≤ s := by omega
    rw [convertSerial_oob g N hs, convertSerial_oob g N hs]
  | succ k ih =>
    intro s f1 f2 hk h1 h2
    by_cases hs : s < N.length
    · obtain ⟨a, rfl⟩ : ∃ a, f1 = a + 1 := ⟨f1 - 1, by omega⟩
      obtain ⟨b, rfl⟩ : ∃ b, f2 = b + 1 := ⟨f2 - 1, by omega⟩
      have hch := childrenAt_bound hOrd s
      show HNode.mk (contentAt g N s)
          (convertLog (fun c => convertSerial g N a c) (childrenAt N s))
        = HNode.mk (contentAt g N s)
          (convertLog (fun c => convertSerial g N b c) (childrenAt N s))
      rw [convertLog_congr ?_]
      intro c hc
      obtain ⟨hh, hmem⟩ := hc
      have hb := hch (hh, c) hmem
      exact ih c a b (by omega) (by omega) (by omega)
    · rw [convertSerial_oob g N (by omega), convertSerial_oob g N (by omega)]

theorem sum_range_update (c : Nat) :
    ∀ (n : Nat) (f gf : Nat → Nat) (ps : Nat), ps < n →
    (∀ s, s < n → gf s = if s = ps then f s + c else f s) →
    ((List.range n).map gf).sum = ((List.range n).map f).sum + c
  | 0, _, _, _, h, _ => by omega
  | n + 1, f, gf, ps, h, hg => by
      rw [List.range_succ, List.map_append, List.map_append, List.sum_append,
        List.sum_append]
      by_cases hps : ps = n
      · subst hps
        have heq : ∀ s, s < ps → gf s = f s := by
          intro s hs
          rw [hg s (by omega), if_neg (by omega)]
        have hmap : (List.range ps).map gf = (List.range ps).map f := by
          apply List.map_congr_left
          intro s hs
          exact heq s (List.mem_range.mp hs)
        rw [hmap]
        simp only [List.map_cons, List.map_nil, List.sum_cons, List.sum_nil]
        rw [hg ps (by omega), if_pos rfl]
        omega
      · have hlt : ps < n := by omega
        have hrec := sum_range_update c n f gf ps hlt (fun s hs => hg s (by omega))
        rw [hrec]
        simp only [List.map_cons, List.map_nil, List.sum_cons, List.sum_nil]
        rw [hg n (by omega), if_neg (fun hc => hps hc.symm)]
        omega

/-- Shape invariant of the build: serial ordering, root bounds, and the
filing equation (every serial is filed exactly once, as a root entry or as
one child entry). -/
structure TreeShape (st : BuildState) : Prop where
  ord : OrdOK st.nodes
  rootlt : ∀ p ∈ st.root, p.2 < st.nodes.length
  filed : ∀ T : Nat → Nat,
    (st.root.map (fun p => T p.2)).sum
      + ((List.range st.nodes.length).map
          (fun s => ((childrenAt st.nodes s).map (fun p => T p.2)).sum)).sum
      = ((List.range st.nodes.length).map T).sum

theorem treeShape_init : TreeShape initialBuildState :=
  ⟨(fun s rn hs => by cases hs), (fun p hp => by cases hp), (fun T => rfl)⟩

theorem treeStep_treeShape {g : DependencyGraph} {st st' : BuildState} {e : RExp}
    (h : treeStep g st e = some st') (hts : TreeShape st) : TreeShape st' := by
  obtain ⟨hm, em, hypId, n, hc, hl, hid, hem, hhm, hnmap, hbranch⟩ := treeStep_shape h
  rcases hbranch with ⟨hmax, hroot, hnodes⟩ | ⟨m, ps, pnode, hmax, hps, hpn, hroot, hnodes⟩
  · have hlen : st'.nodes.length = st.nodes.length + 1 := by
      rw [hnodes]; simp
    have hchAt : ∀ s, s < st.nodes.length →
        childrenAt st'.nodes s = childrenAt st.nodes s := by
      intro s hs
      unfold childrenAt
      rw [hnodes, getElem?_append_left' hs]
    have hchNew : childrenAt st'.nodes st.nodes.length = [] := by
      unfold childrenAt
      rw [hnodes, List.getElem?_append_right (Nat.le_refl _)]
      simp
    refine ⟨?_, ?_, ?_⟩
    · intro s rn hs p hp
      rw [hnodes] at hs
      by_cases hsl : s < st.nodes.length
      · rw [getElem?_append_left' hsl] at hs
        have := hts.ord s rn hs p hp
        omega
      · have hsle : st.nodes.length ≤ s := by omega
        rw [List.getElem?_append_right hsle] at hs
        rcases hse : s - st.nodes.length with _ | d
        · rw [hse] at hs
          simp only [List.getElem?_cons_zero, Option.some.injEq] at hs
          subst hs
          cases hp
        · rw [hse] at hs
          simp at hs
    · intro p hp
      rw [hroot] at hp
      rcases List.mem_append.mp hp with hp | hp
      · have := hts.rootlt p hp
        omega
      · rw [List.mem_singleton] at hp
        subst hp
        omega
    · intro T
      rw [hroot, hlen]
      simp only [List.range_succ, List.map_append, List.sum_append,
        List.map_cons, List.map_nil, List.sum_cons, List.sum_nil]
      have hmap : (List.range st.nodes.length).map
          (fun s => ((childrenAt st'.nodes s).map (fun p => T p.2)).sum)
          = (List.range st.nodes.length).map
          (fun s => ((childrenAt st.nodes s).map (fun p => T p.2)).sum) := by
        apply List.map_congr_left
        intro s hs
        rw [hchAt s (List.mem_range.mp hs)]
      rw [hmap, hchNew]
      have hfiled := hts.filed T
      simp only [List.map_nil, List.sum_nil]
      omega
  · have hpslt : ps < st.nodes.length := getElem?_some_lt hpn
    have hsetlen : (st.nodes.set ps
        { pnode with children := pnode.children ++ [(hypId, st.nodes.length)] }).length
        = st.nodes.length := by simp
    have hlen : st'.nodes.length = st.nodes.length + 1 := by
      rw [hnodes]; simp
    have hchAt : ∀ s, s < st.nodes.length → s ≠ ps →
        childrenAt st'.nodes s = childrenAt st.nodes s := by
      intro s hs hne
      unfold childrenAt
      rw [hnodes, getElem?_append_left' (by rw [hsetlen]; exact hs),
        getElem?_set_ne (fun hc => hne hc.symm)]
    have hchPs : childrenAt st'.nodes ps
        = childrenAt st.nodes ps ++ [(hypId, st.nodes.length)] := by
      unfold childrenAt
      rw [hnodes, getElem?_append_left' (by rw [hsetlen]; exact hpslt),
        getElem?_set_self hpslt, hpn]
    have hchNew : childrenAt st'.nodes st.nodes.length = [] := by
      unfold childrenAt
      rw [hnodes, List.getElem?_append_right (by rw [hsetlen])]
      rw [hsetlen]
      simp
    refine ⟨?_, ?_, ?_⟩
    · intro s rn hs p hp
      rw [hnodes] at hs
      by_cases hsl : s < st.nodes.length
      · rw [getElem?_append_left' (by rw [hsetlen]; exact hsl)] at hs
        by_cases hsps : ps = s
        · subst hsps
          rw [getElem?_set_self hpslt] at hs
          cases hs
          rcases List.mem_append.mp hp with hp | hp
          · have := hts.ord ps pnode hpn p hp
            omega
          · rw [List.mem_singleton] at hp
            subst hp
            omega
        · rw [getElem?_set_ne hsps] at hs
          have := hts.ord s rn hs p hp
          omega
      · have hsle : st.nodes.length ≤ s := by omega
        rw [List.getElem?_append_right (by rw [hsetlen]; omega)] at hs
        rw [hsetlen] at hs
        rcases hse : s - st.nodes.length with _ | d
        · rw [hse] at hs
          simp only [List.getElem?_cons_zero, Option.some.injEq] at hs
          subst hs
          cases hp
        · rw [hse] at hs
          simp at hs
    · intro p hp
      rw [hroot] at hp
      have := hts.rootlt p hp
      omega
    · intro T
      rw [hroot, hlen]
      simp only [List.range_succ, List.map_append, List.sum_append,
        List.map_cons, List.map_nil, List.sum_cons, List.sum_nil]
      have hupd := sum_range_update (T st.nodes.length) st.nodes.length
        (fun s => ((childrenAt st.nodes s).map (fun p => T p.2)).sum)
        (fun s => ((childrenAt st'.nodes s).map (fun p => T p.2)).sum)
        ps hpslt ?_
      · rw [hupd, hchNew]
        have hfiled := hts.filed T
        simp only [List.map_nil, List.sum_nil]
        omega
      · intro s hsn
        show ((childrenAt st'.nodes s).map (fun p => T p.2)).sum
          = if s = ps then ((childrenAt st.nodes s).map (fun p => T p.2)).sum
              + T st.nodes.length
            else ((childrenAt st.nodes s).map (fun p => T p.2)).sum
        by_cases hsps : s = ps
        · subst hsps
          rw [if_pos rfl, hchPs, List.map_append, List.sum_append]
          simp
        · rw [if_neg hsps, hchAt s hsn hsps]

theorem runBuild_treeShape (g : DependencyGraph) :
    ∀ (es : List RExp) (st stf : BuildState),
    runBuild g es st = some stf → TreeShape st → TreeShape stf
  | [], st, stf, hrun, hts => by
      rw [runBuild] at hrun
      cases hrun
      exact hts
  | e :: rest, st, stf, hrun, hts => by
      rw [runBuild] at hrun
      cases hstep : treeStep g st e with
      | none => rw [hstep] at hrun; cases hrun
      | some st' =>
          rw [hstep] at hrun
          exact runBuild_treeShape g rest st' stf hrun (treeStep_treeShape hstep hts)

theorem count_eq_sum_range {α : Type} [DecidableEq α] (q : α) :
    ∀ (l : List α),
    ((List.range l.length).map (fun s => if l[s]? = some q then 1 else 0)).sum
      = l.count q
  | [] => rfl
  | a :: l => by
      show ((List.range (l.length + 1)).map _).sum = _
      rw [List.range_succ_eq_map, List.map_cons, List.sum_cons, List.map_map]
      have hmap : ((fun s => if (a :: l)[s]? = some q then 1 else 0) ∘ (· + 1))
          = fun s => if l[s]? = some q then 1 else 0 := by
        funext s
        simp
      rw [hmap, count_eq_sum_range q l, List.count_cons]
      by_cases h : a = q
      · simp [h]
        omega
      · have : ¬(some a = some q) := fun hc => h (Option.some.inj hc)
        simp [h, this]

theorem contentAt_final {input : List RStmt} {g : DependencyGraph}
    {stf : BuildState} (hg : build_graph input = .ok g)
    (hrun : runBuild g (input.filterMap RStmt.expression) initialBuildState
      = some stf) :
    ∀ (i : Nat) (e : RExp), (input.filterMap RStmt.expression)[i]? = some e →
      contentAt g stf.nodes i = e := by
  intro i e hi
  obtain ⟨hnodes, hE, hidx⟩ := build_graph_inv hg
  have hnm0 : NodeMapOK initialBuildState := by
    intro n s hs
    cases hs
  obtain ⟨_, _, _, _, hplace⟩ :=
    runBuild_placed g _ initialBuildState stf hrun hnm0
  obtain ⟨n, hid, ⟨rn, hrn, hgid⟩, _⟩ := hplace i e hi
  have h0 : initialBuildState.nodes.length + i = i := by
    simp [initialBuildState]
  rw [h0] at hrn
  have hne : g.nodes[n]? = some e := by
    have hidL : lastIdxOf e g.nodes = some n := by
      rw [← hidx]
      exact hid
    exact lastIdxOf_getElem hidL
  unfold contentAt
  rw [hrn]
  show g.nodes.getD rn.graphId (RExp.Constant "") = e
  rw [hgid, List.getD_eq_getElem?_getD, hne]
  rfl

/-- C4 (amended): each expression value occurs as a node content of the
finished hypothesis tree exactly as often as it occurs in the processed
expression list. -/
theorem claim_C4 (input : List RStmt) (g : DependencyGraph) (t : HypothesisTree)
    (hg : build_graph input = .ok g)
    (ht : parse_hypothesis_tree input g = some t) (q : RExp) :
    countTree q t = (input.filterMap RStmt.expression).count q := by
  obtain ⟨stf, hrun, rfl⟩ := Option.map_eq_some'.mp ht
  obtain ⟨hnodes, hE, hidx⟩ := build_graph_inv hg
  have hnm0 : NodeMapOK initialBuildState := by
    intro n s hs
    cases hs
  obtain ⟨_, hlen, _, _, _⟩ := runBuild_placed g _ initialBuildState stf hrun hnm0
  have hlen' : stf.nodes.length = (input.filterMap RStmt.expression).length := by
    rw [hlen]
    simp [initialBuildState]
  have hts := runBuild_treeShape g _ _ _ hrun treeShape_init
  show countBranches q (convertLog
      (fun c => convertSerial g stf.nodes stf.nodes.length c) stf.root)
    = (input.filterMap RStmt.expression).count q
  rw [convertLog_sum]
  have hident : ∀ s, s < stf.nodes.length →
      countNode q (convertSerial g stf.nodes stf.nodes.length s)
        = (if contentAt g stf.nodes s = q then 1 else 0)
          + ((childrenAt stf.nodes s).map (fun p =>
              countNode q (convertSerial g stf.nodes stf.nodes.length p.2))).sum := by
    intro s hsl
    obtain ⟨a, hLa⟩ : ∃ a, stf.nodes.length = a + 1 := ⟨stf.nodes.length - 1, by omega⟩
    rw [hLa]
    show countNode q (.mk (contentAt g stf.nodes s)
      (convertLog (fun c => convertSerial g stf.nodes a c) (childrenAt stf.nodes s))) = _
    show (if contentAt g stf.nodes s = q then 1 else 0)
      + countBranches q (convertLog (fun c => convertSerial g stf.nodes a c)
          (childrenAt stf.nodes s)) = _
    rw [convertLog_sum]
    congr 1
    apply congrArg List.sum
    apply List.map_congr_left
    intro p hp
    have hb := childrenAt_bound hts.ord s p hp
    show countNode q (convertSerial g stf.nodes a p.2) = _
    rw [convertSerial_stab hts.ord stf.nodes.length p.2 a (a + 1)
      (by omega) (by omega) (by omega)]
  have hfiled := hts.filed
    (fun c => countNode q (convertSerial g stf.nodes stf.nodes.length c))
  have hsum : ((List.range stf.nodes.length).map
      (fun c => countNode q (convertSerial g stf.nodes stf.nodes.length c))).sum
      = ((List.range stf.nodes.length).map
          (fun s => if contentAt g stf.nodes s = q then 1 else 0)).sum
        + ((List.range stf.nodes.length).map
            (fun s => ((childrenAt stf.nodes s).map (fun p =>
              countNode q (convertSerial g stf.nodes stf.nodes.length p.2))).sum)).sum := by
    rw [← sum_map_add]
    apply congrArg List.sum
    apply List.map_congr_left
    intro s hs
    exact hident s (List.mem_range.mp hs)
  have hcont : ((List.range stf.nodes.length).map
      (fun s => if contentAt g stf.nodes s = q then 1 else 0)).sum
      = ((List.range stf.nodes.length).map
          (fun s => if (input.filterMap RStmt.expression)[s]? = some q
            then 1 else 0)).sum := by
    apply congrArg List.sum
    apply List.map_congr_left
    intro s hs
    have hsl := List.mem_range.mp hs
    obtain ⟨e, he⟩ := getElem?_of_lt (show s < (input.filterMap RStmt.expression).length
      by omega)
    rw [contentAt_final hg hrun s e he, he]
    by_cases hq : e = q
    · subst hq
      simp
    · have : ¬(some e = some q) := fun hc => hq (Option.some.inj hc)
      rw [if_neg hq, if_neg this]
  rw [hsum, hcont] at hfiled
  have hcount := count_eq_sum_range q (input.filterMap RStmt.expression)
  rw [← hlen'] at hcount
  omega


/-- Counterexample program: two statements with the same rhs value `1`. -/
def c4cprog : List RStmt :=
  [.Assignment (.Variable "a") .nil (.Constant "1"),
   .Assignment (.Variable "b") .nil (.Constant "1")]

def c4cg : DependencyGraph :=
  match build_graph c4cprog with
  | .ok g => g
  | .error _ => { nodes := [], edges := [], index := [], env := [] }

def c4ctree : HypothesisTree :=
  (parse_hypothesis_tree c4cprog c4cg).getD ⟨.nil, []⟩

/-- C4 fails as stated: the processed expression `1` appears twice (not
exactly once) as a node content of the finished tree. -/
theorem claim_C4_counterexample :
    build_graph c4cprog = .ok c4cg ∧
    parse_hypothesis_tree c4cprog c4cg = some c4ctree ∧
    (c4cprog.filterMap RStmt.expression)[0]? = some (RExp.Constant "1") ∧
    countTree (RExp.Constant "1") c4ctree = 2 ∧
    (2 : Nat) ≠ 1 :=
  ⟨rfl, rfl, rfl, rfl, by decide⟩

/-- Witness program for C4: `x <- 1` then `y <- x`. -/
def c4wprog : List RStmt :=
  [.Assignment (.Variable "x") .nil (.Constant "1"),
   .Assignment (.Variable "y") .nil (.Variable "x")]

def c4wg : DependencyGraph :=
  match build_graph c4wprog with
  | .ok g => g
  | .error _ => { nodes := [], edges := [], index := [], env := [] }

def c4wtree : HypothesisTree :=
  (parse_hypothesis_tree c4wprog c4wg).getD ⟨.nil, []⟩

theorem claim_C4_witness :
    build_graph c4wprog = .ok c4wg ∧
    parse_hypothesis_tree c4wprog c4wg = some c4wtree ∧
    countTree (RExp.Constant "1") c4wtree
      = (c4wprog.filterMap RStmt.expression).count (RExp.Constant "1") :=
  ⟨rfl, rfl, claim_C4 c4wprog c4wg c4wtree rfl rfl (RExp.Constant "1")⟩


end Tractus
